import Mathlib

/-!
Verification of the ChibiGameEngine audio module (`IAudio` / `OpenALAudio`).

The C++ sources are shallowly embedded: the `uint32_t` key counter is a
natural number reduced modulo 2 ^ 32 on increment (unsigned overflow wraps),
`float` quantities (volumes, fade times, the 0.016f per-frame decrement) are
modeled as exact rationals, `std::string` is `String`, and the OpenAL
collaborator library is modeled as an explicit world mapping source handles
to their observable state.  Indeterminate reads (an `alGetSource*` call on a
deleted handle writes through an uninitialized output variable in the C++)
are modeled by fixed defaults, noted at each reader.  Two ghost fields
(`KeyState.hist` and `AudioState.callbackCount`) record observable events
(keys returned by `GenerateAudioKey`, invocations of the finished-music
callback); no operation reads them.
-/

namespace Engine

/-- Audio playback actions, from `IAudio::EAudioAction`. -/
inductive EAudioAction where
  | kStop
  | kResume
  | kPause
  | kReplay
  | kRewind
  | kMute
  | kUnmute
  | kLoop
  | kStopLoop
  | kVolumeUp
  | kVolumeDown
deriving DecidableEq

/-- Audio format types, from `IAudio::EAudioFormat`. -/
inductive EAudioFormat where
  | kCommand
  | kWav
  | kMod
  | kMidi
  | kOgg
  | kMp3
  | kFlac
  | kAiff
  | kRaw
  | kOthers
deriving DecidableEq

/-- Playback state of an OpenAL source (`AL_SOURCE_STATE`). -/
inductive ALSrcState where
  | initial
  | playing
  | paused
  | stopped
deriving DecidableEq

/-- Observable per-source OpenAL state used by this module: gain, playback
state, looping flag and 2D position. -/
structure ALSource where
  gain : ℚ
  sstate : ALSrcState
  looping : Bool
  posX : ℚ
  posY : ℚ
deriving DecidableEq

/-- Model of the OpenAL collaborator: a partial map from source handles to
source state, plus fresh-handle counters for `alGenSources` and
`alGenBuffers`.  `none` means the handle is not a live source. -/
structure ALWorld where
  sources : Nat → Option ALSource
  nextSource : Nat
  nextBuffer : Nat

/-- Source state produced by `OpenALAudio::CreateSource`: default position,
gain 1.0, no looping, state `AL_INITIAL`. -/
def defaultALSource : ALSource :=
  { gain := 1, sstate := .initial, looping := false, posX := 0, posY := 0 }

/-- Model of `alGenSources` combined with the property setup done in
`OpenALAudio::CreateSource`; returns a fresh nonzero handle. -/
def CreateSource (w : ALWorld) : Nat × ALWorld :=
  (w.nextSource,
   { w with
     nextSource := w.nextSource + 1,
     sources := fun x => if x = w.nextSource then some defaultALSource else w.sources x })

/-- Update a live source in place; a call on a dead handle is an OpenAL
error with no state change. -/
def updSource (h : Nat) (f : ALSource → ALSource) (w : ALWorld) : ALWorld :=
  { w with sources := fun x => if x = h then (w.sources x).map f else w.sources x }

/-- Model of `alDeleteSources`. -/
def delSource (h : Nat) (w : ALWorld) : ALWorld :=
  { w with sources := fun x => if x = h then none else w.sources x }

/-- Model of `alSourceStop`. -/
def alSourceStopM (h : Nat) (w : ALWorld) : ALWorld :=
  updSource h (fun s => { s with sstate := .stopped }) w

/-- Model of `alSourcePlay`. -/
def alSourcePlayM (h : Nat) (w : ALWorld) : ALWorld :=
  updSource h (fun s => { s with sstate := .playing }) w

/-- Model of `alSourcePause`. -/
def alSourcePauseM (h : Nat) (w : ALWorld) : ALWorld :=
  updSource h (fun s => { s with sstate := .paused }) w

/-- Model of `alSourceRewind` (the source returns to `AL_INITIAL`). -/
def alSourceRewindM (h : Nat) (w : ALWorld) : ALWorld :=
  updSource h (fun s => { s with sstate := .initial }) w

/-- Model of `alSourcef(h, AL_GAIN, g)`. -/
def alSourceGainM (h : Nat) (g : ℚ) (w : ALWorld) : ALWorld :=
  updSource h (fun s => { s with gain := g }) w

/-- Model of `alSourcei(h, AL_LOOPING, b)`. -/
def alSourceLoopM (h : Nat) (b : Bool) (w : ALWorld) : ALWorld :=
  updSource h (fun s => { s with looping := b }) w

/-- Model of `alSource3f(h, AL_POSITION, x, y, 0)`. -/
def alSourcePosM (h : Nat) (x y : ℚ) (w : ALWorld) : ALWorld :=
  updSource h (fun s => { s with posX := x, posY := y }) w

/-- Read a source's playback state; reading through a dead handle is
indeterminate in the C++ (uninitialized output variable) and is modeled as
`stopped`. -/
def srcStateD (w : ALWorld) (h : Nat) : ALSrcState :=
  match w.sources h with
  | some s => s.sstate
  | none => .stopped

/-- Read a source's gain; indeterminate on a dead handle, modeled as 0. -/
def srcGainD (w : ALWorld) (h : Nat) : ℚ :=
  match w.sources h with
  | some s => s.gain
  | none => 0

/-- Modulus of the `uint32_t` key counter. -/
def u32 : Nat := 2 ^ 32

/-- Key-management state owned by `IAudio`: the next fresh key
(`m_NextAudioKey`), the key-to-path table (`m_AudioKeyToPath`) and the
one-entry lookup cache (`m_LastKeyGeneration`).  The field `hist` is ghost
instrumentation listing every (key, path) pair ever returned by
`GenerateAudioKey`, in order; no operation reads it. -/
structure KeyState where
  next : Nat
  table : List (Nat × String)
  cachePath : String
  cacheKey : Nat
  hist : List (Nat × String)
deriving DecidableEq

/-- Remove every binding of key `k` from the table (`erase` on the map). -/
def eraseKey (k : Nat) (l : List (Nat × String)) : List (Nat × String) :=
  l.filter (fun e => e.1 ≠ k)

/-- First key bound to `path` in the table: the linear scan in
`GenerateAudioKey`.  The C++ iterates an `unordered_map` in unspecified
order; on the path-functional tables this object maintains the result is
order-independent. -/
def findKeyOfPath (path : String) (l : List (Nat × String)) : Option Nat :=
  (l.find? (fun e => e.2 = path)).map (fun e => e.1)

/-- Model of `IAudio::GenerateAudioKey` on the key-management state: cache
hit first, then table scan, else a fresh key from the wrapping `uint32_t`
counter, recorded in the table (`operator[]` assignment) and the cache.
Every returned pair is also recorded in the ghost history. -/
def genKeyK (path : String) (ks : KeyState) : Nat × KeyState :=
  if ks.cachePath = path then
    (ks.cacheKey, { ks with hist := ks.hist ++ [(ks.cacheKey, path)] })
  else
    match findKeyOfPath path ks.table with
    | some k =>
        (k, { ks with cachePath := path, cacheKey := k, hist := ks.hist ++ [(k, path)] })
    | none =>
        let k := ks.next
        (k, { next := (ks.next + 1) % u32,
              table := (k, path) :: eraseKey k ks.table,
              cachePath := path,
              cacheKey := k,
              hist := ks.hist ++ [(k, path)] })

/-- Model of `Engine::AudioBuffer`: one OpenAL buffer id and the sources
currently referencing it. -/
structure AudioBuffer where
  buffer : Nat
  sources : List Nat
deriving DecidableEq

/-- Combined state of one `OpenALAudio` object together with the modeled
OpenAL world.  `hasCallback` models whether `m_MusicFinishedCallback` is
non-null; `callbackCount` is ghost instrumentation counting its
invocations. -/
structure AudioState where
  keys : KeyState
  audioBuffers : List (Nat × AudioBuffer)
  currentMusicPathKey : Nat
  currentMusicSource : Nat
  initialized : Bool
  musicVolume : ℚ
  musicPaused : Bool
  musicFading : Bool
  hasCallback : Bool
  fadeStartVolume : ℚ
  fadeTargetVolume : ℚ
  fadeTimeRemaining : ℚ
  fadeDuration : ℚ
  al : ALWorld
  callbackCount : Nat

/-- Model of `IAudio::GenerateAudioKey` acting on the whole object state. -/
def GenerateAudioKey (filepath : String) (s : AudioState) : Nat × AudioState :=
  let r := genKeyK filepath s.keys
  (r.1, { s with keys := r.2 })

/-- Lookup in the buffer map `m_AudioBuffers` (`find` by key). -/
def lookupBuf (k : Nat) (l : List (Nat × AudioBuffer)) : Option AudioBuffer :=
  (l.find? (fun e => e.1 = k)).map (fun e => e.2)

/-- Erase a buffer record by key. -/
def eraseBuf (k : Nat) (l : List (Nat × AudioBuffer)) : List (Nat × AudioBuffer) :=
  l.filter (fun e => e.1 ≠ k)

/-- Update the buffer record stored under key `k`, if present. -/
def updateBuf (k : Nat) (f : AudioBuffer → AudioBuffer) (l : List (Nat × AudioBuffer)) :
    List (Nat × AudioBuffer) :=
  l.map (fun e => if e.1 = k then (e.1, f e.2) else e)

/-- Fuel-driven binary logarithm on naturals (`⌊log₂ n⌋` for `n ≥ 1`),
structurally recursive so that it evaluates inside the kernel. -/
def nlog2Aux : ℕ → ℕ → ℕ
  | 0, _ => 0
  | fuel+1, n => if 2 ≤ n then nlog2Aux fuel (n / 2) + 1 else 0

/-- Binary logarithm (floor) of a natural number; `nlog2 0 = 0`. -/
def nlog2 (n : ℕ) : ℕ := nlog2Aux n n

/-- Floor of a nonnegative rational, computed on the reduced numerator and
denominator by natural division. -/
def floorQ (q : ℚ) : ℤ := ((q.num.toNat / q.den : ℕ) : ℤ)

/-- Round a nonnegative rational to the nearest integer, ties to even —
the IEEE-754 default rounding direction. -/
def rne (q : ℚ) : ℤ :=
  if q - (floorQ q : ℚ) < 1/2 then floorQ q
  else if (1/2 : ℚ) < q - (floorQ q : ℚ) then floorQ q + 1
  else if floorQ q % 2 = 0 then floorQ q else floorQ q + 1

/-- Binary exponent of a positive rational: the `e` with `2^e ≤ q < 2^(e+1)`,
obtained from the numerator's and denominator's integer logarithms with a
one-step correction. -/
def ilog2Q (q : ℚ) : ℤ :=
  if (2:ℚ) ^ ((nlog2 q.num.natAbs : ℤ) - (nlog2 q.den : ℤ)) ≤ q then
    (nlog2 q.num.natAbs : ℤ) - (nlog2 q.den : ℤ)
  else (nlog2 q.num.natAbs : ℤ) - (nlog2 q.den : ℤ) - 1

/-- Round a positive rational onto the IEEE-754 binary32 grid: scale into
`[2^23, 2^24)`, round to nearest (ties to even), scale back.  The exponent
is unbounded: every float this module computes lies far inside the normal
range, so subnormal flushing and infinity never arise. -/
def fl32pos (q : ℚ) : ℚ :=
  ((rne (q * (2:ℚ) ^ ((23:ℤ) - ilog2Q q)) : ℤ) : ℚ) * (2:ℚ) ^ (ilog2Q q - (23:ℤ))

/-- Value of the C++ `float` nearest a real (rational) number: the result
of rounding to the binary32 grid with 24-bit significand, round to
nearest, ties to even.  Every single C++ `float` operation on exact
operands produces `fl32` of the exact result. -/
def fl32 (q : ℚ) : ℚ :=
  if q = 0 then 0
  else if q < 0 then -(fl32pos (-q))
  else fl32pos q

/-- Clamp an external 0–100 integer volume to the normalized range, as in
the C++ `std::max(0.0f, std::min(static_cast<float>(volume) / 100.0f, 1.0f))`:
the int-to-float conversion and the float division each round once to
binary32; `std::min`/`std::max` compare exactly and introduce no rounding
(`0.0f` and `1.0f` are exact). -/
def clampVolume (v : Int) : ℚ := max 0 (min (fl32 (fl32 ((v : ℚ)) / 100)) 1)

/-- C-style `static_cast<int>` of a rational: truncation toward zero,
computed on the reduced numerator and denominator. -/
def cTrunc (q : ℚ) : Int :=
  if q < 0 then -(((-q).num.toNat / (-q).den : ℕ) : ℤ) else ((q.num.toNat / q.den : ℕ) : ℤ)

/-- Model of `OpenALAudio::GetMusicType`: the format is read off the
lowercased extension after the last dot of the filename, `kOthers` when
unrecognized or absent.  The C++ applies `::tolower` per character; the
inputs of interest are ASCII, where `Char.toLower` agrees. -/
def GetMusicType (filepath : String) : EAudioFormat :=
  let cs := filepath.data
  let ext : List Char :=
    if '.' ∈ cs then ((cs.reverse.takeWhile (fun c => c ≠ '.')).reverse).map Char.toLower
    else []
  if ext = "wav".data then .kWav
  else if ext = "ogg".data then .kOgg
  else if ext = "mp3".data then .kMp3
  else if ext = "flac".data then .kFlac
  else if ext = "mid".data ∨ ext = "midi".data then .kMidi
  else if ext = "mod".data then .kMod
  else if ext = "aiff".data then .kAiff
  else if ext = "raw".data then .kRaw
  else .kOthers

/-- Shared tail of `PlayMusic` once the buffer record for `key` exists:
create a source, attach the buffer, set the source gain to `m_MusicVolume`,
make it the current music, register it on the buffer record, start
playback, and clear the paused and fading flags. -/
def playMusicAttach (key : Nat) (s : AudioState) : Bool × AudioState :=
  let r := CreateSource s.al
  if r.1 = 0 then (false, { s with al := r.2 })
  else
    (true,
     { s with
       al := alSourcePlayM r.1 (alSourceGainM r.1 s.musicVolume r.2),
       currentMusicSource := r.1,
       currentMusicPathKey := key,
       audioBuffers := updateBuf key (fun b => { b with sources := b.sources ++ [r.1] }) s.audioBuffers,
       musicPaused := false,
       musicFading := false })

/-- Model of `OpenALAudio::PlayMusic`.  The argument `decode` models the
outcome of `LoadWAVFile` (the external decoder plus `alBufferData`) on a
given path.  Note the source stops and deletes any previous current-music
source before attempting the load, and on decode failure the freshly
generated OpenAL buffer is deleted and no record is inserted. -/
def PlayMusic (decode : String → Bool) (filepath : String) (s : AudioState) : Bool × AudioState :=
  if s.initialized = false then (false, s)
  else
    let g := GenerateAudioKey filepath s
    let s1 := g.2
    let s2 :=
      { s1 with
        al := if s1.currentMusicSource ≠ 0 then
                delSource s1.currentMusicSource (alSourceStopM s1.currentMusicSource s1.al)
              else s1.al,
        currentMusicSource := if s1.currentMusicSource ≠ 0 then 0 else s1.currentMusicSource }
    match lookupBuf g.1 s2.audioBuffers with
    | some _ => playMusicAttach g.1 s2
    | none =>
        let bufId := s2.al.nextBuffer
        let s3 := { s2 with al := { s2.al with nextBuffer := bufId + 1 } }
        if decode filepath then
          playMusicAttach g.1
            { s3 with audioBuffers := s3.audioBuffers ++ [(g.1, ⟨bufId, []⟩)] }
        else (false, s3)

/-- One `remove_if` sweep of `CleanupFinishedSources` over one record's
source list: delete (and drop from the list) every source whose reported
state is `AL_STOPPED`. -/
def reapList (w : ALWorld) : List Nat → ALWorld × List Nat
  | [] => (w, [])
  | h :: t =>
      if srcStateD w h = ALSrcState.stopped then
        reapList (delSource h w) t
      else
        let r := reapList w t
        (r.1, h :: r.2)

/-- Sweep of `CleanupFinishedSources` across all buffer records. -/
def reapBuffers (w : ALWorld) : List (Nat × AudioBuffer) → ALWorld × List (Nat × AudioBuffer)
  | [] => (w, [])
  | e :: t =>
      let r1 := reapList w e.2.sources
      let r2 := reapBuffers r1.1 t
      (r2.1, (e.1, { e.2 with sources := r1.2 }) :: r2.2)

/-- Model of `OpenALAudio::CleanupFinishedSources`. -/
def CleanupFinishedSources (s : AudioState) : AudioState :=
  let r := reapBuffers s.al s.audioBuffers
  { s with al := r.1, audioBuffers := r.2 }

/-- Shared tail of `PlaySoundEffect` once the buffer record for `key`
exists: create a source (gain 1.0 from `CreateSource`), play it, register
it on the record, and reap finished sources. -/
def playSoundAttach (key : Nat) (s : AudioState) : Bool × AudioState :=
  let r := CreateSource s.al
  if r.1 = 0 then (false, { s with al := r.2 })
  else
    (true,
     CleanupFinishedSources
       { s with
         al := alSourcePlayM r.1 r.2,
         audioBuffers := updateBuf key (fun b => { b with sources := b.sources ++ [r.1] }) s.audioBuffers })

/-- Model of `OpenALAudio::PlaySoundEffect`. -/
def PlaySoundEffect (decode : String → Bool) (filepath : String) (s : AudioState) : Bool × AudioState :=
  if s.initialized = false then (false, s)
  else
    let g := GenerateAudioKey filepath s
    let s1 := g.2
    match lookupBuf g.1 s1.audioBuffers with
    | some _ => playSoundAttach g.1 s1
    | none =>
        let bufId := s1.al.nextBuffer
        let s2 := { s1 with al := { s1.al with nextBuffer := bufId + 1 } }
        if decode filepath then
          playSoundAttach g.1
            { s2 with audioBuffers := s2.audioBuffers ++ [(g.1, ⟨bufId, []⟩)] }
        else (false, s2)

/-- Model of `OpenALAudio::OperateCurrentMusic` (0.1f volume steps are the
exact rational 1/10). -/
def OperateCurrentMusic (a : EAudioAction) (s : AudioState) : AudioState :=
  if s.currentMusicSource = 0 then s
  else
    let cur := s.currentMusicSource
    match a with
    | .kStop => { s with al := alSourceStopM cur s.al }
    | .kPause => { s with al := alSourcePauseM cur s.al, musicPaused := true }
    | .kResume => { s with al := alSourcePlayM cur s.al, musicPaused := false }
    | .kReplay => { s with al := alSourcePlayM cur (alSourceRewindM cur s.al) }
    | .kLoop => { s with al := alSourceLoopM cur true s.al }
    | .kStopLoop => { s with al := alSourceLoopM cur false s.al }
    | .kMute => { s with al := alSourceGainM cur 0 s.al }
    | .kUnmute => { s with al := alSourceGainM cur s.musicVolume s.al }
    | .kVolumeUp =>
        let mv := min (s.musicVolume + 1/10) 1
        { s with musicVolume := mv, al := alSourceGainM cur mv s.al }
    | .kVolumeDown =>
        let mv := max (s.musicVolume - 1/10) 0
        { s with musicVolume := mv, al := alSourceGainM cur mv s.al }
    | .kRewind => { s with al := alSourceRewindM cur s.al }

/-- Per-source effect of one `OperateCurrentSounds` action.  The unmute
branch sets the gain to the constant 1.0 (full volume); the volume up and
down branches read the source's own gain back via `alGetSourcef`. -/
def applySoundAction (a : EAudioAction) (h : Nat) (w : ALWorld) : ALWorld :=
  match a with
  | .kStop => alSourceStopM h w
  | .kPause => alSourcePauseM h w
  | .kResume => alSourcePlayM h w
  | .kReplay => alSourcePlayM h (alSourceRewindM h w)
  | .kRewind => alSourceRewindM h w
  | .kMute => alSourceGainM h 0 w
  | .kUnmute => alSourceGainM h 1 w
  | .kLoop => alSourceLoopM h true w
  | .kStopLoop => alSourceLoopM h false w
  | .kVolumeUp => updSource h (fun src => { src with gain := min (src.gain + 1/10) 1 }) w
  | .kVolumeDown => updSource h (fun src => { src with gain := max (src.gain - 1/10) 0 }) w

/-- The nested loop of `OperateCurrentSounds` over every record's sources,
skipping the current music source, flattened into one fold over the
concatenation (same visiting order as the C++ loops). -/
def opSoundsFold (cur : Nat) (a : EAudioAction) (w : ALWorld) (hs : List Nat) : ALWorld :=
  hs.foldl (fun w h => if h = cur then w else applySoundAction a h w) w

/-- Model of `OpenALAudio::OperateCurrentSounds`: reap finished sources,
then apply the action to every non-music source. -/
def OperateCurrentSounds (a : EAudioAction) (s : AudioState) : AudioState :=
  if s.initialized = false then s
  else
    let s1 := CleanupFinishedSources s
    { s1 with
      al := opSoundsFold s1.currentMusicSource a s1.al
        ((s1.audioBuffers.map (fun e => e.2.sources)).flatten) }

/-- Model of `OpenALAudio::FadeInMusic`.  `PlayMusic` runs (with its side
effects) even when it fails; fade state is set only on success. -/
def FadeInMusic (decode : String → Bool) (filepath : String) (loops ms : Int)
    (s : AudioState) : AudioState :=
  let r := PlayMusic decode filepath s
  if r.1 then
    let s1 := r.2
    { s1 with
      fadeStartVolume := 0,
      fadeTargetVolume := s1.musicVolume,
      fadeTimeRemaining := (ms : ℚ) / 1000,
      fadeDuration := (ms : ℚ) / 1000,
      musicFading := true,
      al := alSourceLoopM s1.currentMusicSource (loops == -1)
        (alSourceGainM s1.currentMusicSource 0 s1.al) }
  else r.2

/-- Model of `OpenALAudio::FadeOutMusic`. -/
def FadeOutMusic (ms : Int) (s : AudioState) : AudioState :=
  if s.currentMusicSource ≠ 0 then
    { s with
      fadeStartVolume := s.musicVolume,
      fadeTargetVolume := 0,
      fadeTimeRemaining := (ms : ℚ) / 1000,
      fadeDuration := (ms : ℚ) / 1000,
      musicFading := true }
  else s

/-- Model of `OpenALAudio::UpdateFading`: one per-frame tick.  The `0.016f`
decrement is the exact rational 2/125.  On completion the gain snaps to the
target; if the target is 0 the source is stopped and the registered
callback (if any) is invoked, counted in the ghost `callbackCount`. -/
def UpdateFading (s : AudioState) : AudioState :=
  if s.musicFading = false ∨ s.currentMusicSource = 0 then s
  else
    let r := s.fadeTimeRemaining - 2/125
    if r ≤ 0 then
      let s1 := { s with
        musicFading := false,
        fadeTimeRemaining := r,
        al := alSourceGainM s.currentMusicSource s.fadeTargetVolume s.al }
      if s.fadeTargetVolume = 0 then
        { s1 with
          al := alSourceStopM s.currentMusicSource s1.al,
          callbackCount := if s.hasCallback then s.callbackCount + 1 else s.callbackCount }
      else s1
    else
      { s with
        fadeTimeRemaining := r,
        al := alSourceGainM s.currentMusicSource
          (s.fadeStartVolume + (s.fadeTargetVolume - s.fadeStartVolume) * (1 - r / s.fadeDuration))
          s.al }

/-- Stop and delete every source of a freed buffer record. -/
def freeSources (ss : List Nat) (w : ALWorld) : ALWorld :=
  ss.foldl (fun w h => delSource h (alSourceStopM h w)) w

/-- Model of `OpenALAudio::FreeMusicByKey`: remove the buffer record and
its sources and the key's path-table entry (the lookup cache is left
untouched); reset the current-music state when the freed key was the
current music. -/
def FreeMusicByKey (audioKey : Nat) (s : AudioState) : AudioState :=
  match lookupBuf audioKey s.audioBuffers with
  | none => s
  | some b =>
      { s with
        al := freeSources b.sources s.al,
        audioBuffers := eraseBuf audioKey s.audioBuffers,
        keys := { s.keys with table := eraseKey audioKey s.keys.table },
        currentMusicPathKey :=
          if audioKey = s.currentMusicPathKey then 0 else s.currentMusicPathKey,
        currentMusicSource :=
          if audioKey = s.currentMusicPathKey then 0 else s.currentMusicSource }

/-- Model of `OpenALAudio::FreeSoundByKey`.  Unlike `FreeMusicByKey` it
does not reset the current-music state. -/
def FreeSoundByKey (audioKey : Nat) (s : AudioState) : AudioState :=
  match lookupBuf audioKey s.audioBuffers with
  | none => s
  | some b =>
      { s with
        al := freeSources b.sources s.al,
        audioBuffers := eraseBuf audioKey s.audioBuffers,
        keys := { s.keys with table := eraseKey audioKey s.keys.table } }

/-- Model of `OpenALAudio::SetMusicVolume`. -/
def SetMusicVolume (volume : Int) (s : AudioState) : AudioState :=
  let mv := clampVolume volume
  { s with
    musicVolume := mv,
    al := if s.currentMusicSource ≠ 0 then alSourceGainM s.currentMusicSource mv s.al else s.al }

/-- Model of `OpenALAudio::SetSoundVolume`. -/
def SetSoundVolume (filepath : String) (volume : Int) (s : AudioState) : AudioState :=
  let nv := clampVolume volume
  let g := GenerateAudioKey filepath s
  match lookupBuf g.1 g.2.audioBuffers with
  | some b => { g.2 with al := b.sources.foldl (fun w h => alSourceGainM h nv w) g.2.al }
  | none => g.2

/-- Model of `OpenALAudio::GetMusicVolume`: read the current source's gain
when one exists, else the stored normalized volume, both scaled by 100 and
truncated to an integer.  The C++ computes `volume * 100.0f` in binary32,
so the product rounds once (`fl32`) before the `static_cast<int>`. -/
def GetMusicVolume (s : AudioState) : Int :=
  if s.currentMusicSource ≠ 0 then cTrunc (fl32 (srcGainD s.al s.currentMusicSource * 100))
  else cTrunc (fl32 (s.musicVolume * 100))

/-- Model of `OpenALAudio::GetSoundVolume`.  It calls `GenerateAudioKey`,
so it can mutate the key state; the updated state is returned alongside the
value.  Returns the sentinel 0 when the key has no record or no sources.
As in `GetMusicVolume`, the C++ `volume * 100.0f` rounds once to
binary32 before the `static_cast<int>`. -/
def GetSoundVolume (filepath : String) (s : AudioState) : Int × AudioState :=
  let g := GenerateAudioKey filepath s
  match lookupBuf g.1 g.2.audioBuffers with
  | some b =>
      match b.sources with
      | h :: _ => (cTrunc (fl32 (srcGainD g.2.al h * 100)), g.2)
      | [] => (0, g.2)
  | none => (0, g.2)

/-- Model of `OpenALAudio::GetMaxVolume`. -/
def GetMaxVolume : Int := 100

/-- Model of `OpenALAudio::SetMusicPosition`. -/
def SetMusicPosition (x y : ℚ) (s : AudioState) : AudioState :=
  if s.currentMusicSource ≠ 0 then { s with al := alSourcePosM s.currentMusicSource x y s.al }
  else s

/-- Model of `OpenALAudio::SetFinishMusicCallback`; `b` says whether the
installed pointer is non-null. -/
def SetFinishMusicCallback (b : Bool) (s : AudioState) : AudioState :=
  { s with hasCallback := b }

/-- Model of `OpenALAudio::IsMusicPlaying`. -/
def IsMusicPlaying (s : AudioState) : Bool :=
  if s.currentMusicSource = 0 then false
  else decide (srcStateD s.al s.currentMusicSource = ALSrcState.playing)

/-- Model of `OpenALAudio::IsMusicPaused`. -/
def IsMusicPaused (s : AudioState) : Bool :=
  if s.currentMusicSource = 0 then false
  else decide (srcStateD s.al s.currentMusicSource = ALSrcState.paused)

/-- Model of `OpenALAudio::IsMusicFading`. -/
def IsMusicFading (s : AudioState) : Bool := s.musicFading

/-- State established by the `OpenALAudio` constructor, before `Init`. -/
def initialState : AudioState :=
  { keys := { next := 1, table := [], cachePath := "", cacheKey := 0, hist := [] },
    audioBuffers := [],
    currentMusicPathKey := 0,
    currentMusicSource := 0,
    initialized := false,
    musicVolume := 1,
    musicPaused := false,
    musicFading := false,
    hasCallback := false,
    fadeStartVolume := 0,
    fadeTargetVolume := 0,
    fadeTimeRemaining := 0,
    fadeDuration := 0,
    al := { sources := fun _ => none, nextSource := 1, nextBuffer := 1 },
    callbackCount := 0 }

/-- Model of `OpenALAudio::Init`, assuming device and context creation
succeed (the external device is available). -/
def Init (s : AudioState) : AudioState := { s with initialized := true }

/-- Constructor state after a successful `Init`. -/
def readyState : AudioState := Init initialState

/-- One operation of the audio object's lifetime; decoder outcomes are a
parameter of `applyOp`. -/
inductive Op where
  | init
  | genKey (p : String)
  | playMusic (p : String)
  | playSoundEffect (p : String)
  | operateCurrentMusic (a : EAudioAction)
  | operateCurrentSounds (a : EAudioAction)
  | fadeInMusic (p : String) (loops ms : Int)
  | fadeOutMusic (ms : Int)
  | freeMusicByKey (k : Nat)
  | freeSoundByKey (k : Nat)
  | setMusicVolume (v : Int)
  | setSoundVolume (p : String) (v : Int)
  | getSoundVolume (p : String)
  | setMusicPosition (x y : ℚ)
  | setFinishMusicCallback (b : Bool)
  | updateFading

/-- State transition of one operation. -/
def applyOp (decode : String → Bool) : Op → AudioState → AudioState
  | .init, s => Init s
  | .genKey p, s => (GenerateAudioKey p s).2
  | .playMusic p, s => (PlayMusic decode p s).2
  | .playSoundEffect p, s => (PlaySoundEffect decode p s).2
  | .operateCurrentMusic a, s => OperateCurrentMusic a s
  | .operateCurrentSounds a, s => OperateCurrentSounds a s
  | .fadeInMusic p l m, s => FadeInMusic decode p l m s
  | .fadeOutMusic m, s => FadeOutMusic m s
  | .freeMusicByKey k, s => FreeMusicByKey k s
  | .freeSoundByKey k, s => FreeSoundByKey k s
  | .setMusicVolume v, s => SetMusicVolume v s
  | .setSoundVolume p v, s => SetSoundVolume p v s
  | .getSoundVolume p, s => (GetSoundVolume p s).2
  | .setMusicPosition x y, s => SetMusicPosition x y s
  | .setFinishMusicCallback b, s => SetFinishMusicCallback b s
  | .updateFading, s => UpdateFading s

/-- Run a sequence of operations. -/
def run (decode : String → Bool) (ops : List Op) (s : AudioState) : AudioState :=
  ops.foldl (fun s op => applyOp decode op s) s

/-- Free operations erase path-table entries. -/
def Op.isFree : Op → Bool
  | .freeMusicByKey _ => true
  | .freeSoundByKey _ => true
  | _ => false

/-- Decoder model in which every file loads successfully. -/
def decodeAll : String → Bool := fun _ => true

/-- Decoder model in which every file fails to load. -/
def decodeNone : String → Bool := fun _ => false

/-! ### Claim C7: format detection by extension -/

/-- C7: `GetMusicType` detects the format from the filename extension only,
case-insensitively: it returns `kWav` for "song.WAV", `kMp3` for
"track.mp3", and `kOthers` for an unrecognized extension such as
"track.xyz". -/
theorem C7_music_type_by_extension :
    GetMusicType "song.WAV" = EAudioFormat.kWav ∧
    GetMusicType "track.mp3" = EAudioFormat.kMp3 ∧
    GetMusicType "track.xyz" = EAudioFormat.kOthers := by
  refine ⟨?_, ?_, ?_⟩ <;> decide

/-! ### Claim C10: FadeOutMusic without current music -/

/-- C10: when no current music instance exists (handle 0), `FadeOutMusic`
is a no-op: the state (in particular all fade state) is unchanged, and if
`IsMusicFading` returned false before, it still returns false. -/
theorem C10_fadeout_noop_without_music (ms : Int) (s : AudioState)
    (h : s.currentMusicSource = 0) :
    FadeOutMusic ms s = s ∧
      (IsMusicFading s = false → IsMusicFading (FadeOutMusic ms s) = false) := by
  have heq : FadeOutMusic ms s = s := by
    unfold FadeOutMusic
    simp [h]
  exact ⟨heq, fun hf => by rw [heq]; exact hf⟩

/-- Witness for C10 at a concrete input. -/
theorem C10_witness :
    FadeOutMusic 500 readyState = readyState ∧
      (IsMusicFading readyState = false →
        IsMusicFading (FadeOutMusic 500 readyState) = false) :=
  C10_fadeout_noop_without_music 500 readyState rfl

/-! ### Claim C2: volume set and read back -/

/-- Truncation toward zero of an integer-valued rational is the integer. -/
theorem cTrunc_intCast (n : ℤ) : cTrunc ((n : ℚ)) = n := by
  unfold cTrunc
  rcases lt_or_le n 0 with h | h
  · have hq : ((n : ℚ)) < 0 := by exact_mod_cast h
    have hneg : (-(n : ℚ)) = (((-n : ℤ)) : ℚ) := by push_cast; ring
    rw [if_pos hq, hneg, Rat.num_intCast, Rat.den_intCast, Nat.div_one]
    omega
  · have hq : ¬((n : ℚ) < 0) := by
      rw [not_lt]
      exact_mod_cast h
    rw [if_neg hq, Rat.num_intCast, Rat.den_intCast, Nat.div_one]
    omega

/-- Powers of two are positive in ℚ, also with integer exponents. -/
theorem two_zpow_pos (e : ℤ) : (0:ℚ) < 2 ^ e := by positivity

/-- The fuel-driven binary logarithm brackets its argument between
consecutive powers of two whenever the fuel covers the argument. -/
theorem nlog2Aux_spec : ∀ fuel n : ℕ, n ≤ fuel → n ≠ 0 →
    2 ^ nlog2Aux fuel n ≤ n ∧ n < 2 ^ (nlog2Aux fuel n + 1) := by
  intro fuel
  induction fuel with
  | zero => intro n hn hn0; omega
  | succ f ih =>
    intro n hn hn0
    by_cases h2 : 2 ≤ n
    · have hrec := ih (n / 2) (by omega) (by omega)
      have heq : nlog2Aux (f + 1) n = nlog2Aux f (n / 2) + 1 := by
        simp [nlog2Aux, h2]
      rw [heq]
      have hpow1 : (2:ℕ) ^ (nlog2Aux f (n / 2) + 1) = 2 * 2 ^ nlog2Aux f (n / 2) := by ring
      have hpow2 : (2:ℕ) ^ (nlog2Aux f (n / 2) + 1 + 1) = 2 * 2 ^ (nlog2Aux f (n / 2) + 1) := by
        ring
      omega
    · have h1 : n = 1 := by omega
      subst h1
      simp [nlog2Aux]

/-- Correctness of `nlog2`: it is the floor of the binary logarithm. -/
theorem nlog2_spec (n : ℕ) (hn : n ≠ 0) :
    2 ^ nlog2 n ≤ n ∧ n < 2 ^ (nlog2 n + 1) :=
  nlog2Aux_spec n n le_rfl hn

/-- Lower bracketing of `floorQ` on nonnegative rationals. -/
theorem floorQ_le (q : ℚ) (hq : 0 ≤ q) : ((floorQ q : ℤ) : ℚ) ≤ q := by
  have hnum : (q.num.toNat : ℤ) = q.num := Int.toNat_of_nonneg (Rat.num_nonneg.mpr hq)
  have hbq : (0:ℚ) < (q.den : ℚ) := by exact_mod_cast q.den_pos
  have hq2 : ((q.num.toNat : ℚ)) = (q.num : ℚ) := by exact_mod_cast hnum
  unfold floorQ
  conv_rhs => rw [← Rat.num_div_den q]
  rw [← hq2, le_div_iff₀ hbq]
  exact_mod_cast Nat.div_mul_le_self q.num.toNat q.den

/-- Upper bracketing of `floorQ` on nonnegative rationals. -/
theorem lt_floorQ_add_one (q : ℚ) (hq : 0 ≤ q) : q < ((floorQ q : ℤ) : ℚ) + 1 := by
  have hnum : (q.num.toNat : ℤ) = q.num := Int.toNat_of_nonneg (Rat.num_nonneg.mpr hq)
  have hb : 0 < q.den := q.den_pos
  have hbq : (0:ℚ) < (q.den : ℚ) := by exact_mod_cast hb
  have hq2 : ((q.num.toNat : ℚ)) = (q.num : ℚ) := by exact_mod_cast hnum
  have hnat : q.num.toNat < (q.num.toNat / q.den + 1) * q.den := by
    calc q.num.toNat = q.den * (q.num.toNat / q.den) + q.num.toNat % q.den :=
          (Nat.div_add_mod _ _).symm
      _ < q.den * (q.num.toNat / q.den) + q.den := by
          have := Nat.mod_lt q.num.toNat hb
          omega
      _ = (q.num.toNat / q.den + 1) * q.den := by ring
  unfold floorQ
  conv_lhs => rw [← Rat.num_div_den q]
  rw [← hq2, div_lt_iff₀ hbq]
  exact_mod_cast hnat

/-- Rounding to nearest never drops below an integer lower bound. -/
theorem rne_ge_int (q : ℚ) (c : ℤ) (hq : 0 ≤ q) (hc : (c:ℚ) ≤ q) : c ≤ rne q := by
  have h2 := lt_floorQ_add_one q hq
  have h3 : (c:ℚ) < ((floorQ q : ℤ) : ℚ) + 1 := lt_of_le_of_lt hc h2
  have h4 : c < floorQ q + 1 := by exact_mod_cast h3
  unfold rne
  split_ifs <;> omega

/-- Rounding to nearest loses at most one half downward. -/
theorem rne_ge_sub_half (q : ℚ) (hq : 0 ≤ q) : q - 1/2 ≤ ((rne q : ℤ) : ℚ) := by
  have hf := floorQ_le q hq
  have hc := lt_floorQ_add_one q hq
  unfold rne
  split_ifs with h1 h2 h3 <;> push_cast <;> linarith

/-- Correctness of the binary exponent: `2 ^ ilog2Q q ≤ q < 2 ^ (ilog2Q q + 1)`
for positive `q`. -/
theorem ilog2Q_spec (q : ℚ) (hq : 0 < q) :
    (2:ℚ) ^ ilog2Q q ≤ q ∧ q < (2:ℚ) ^ (ilog2Q q + 1) := by
  have hnum_pos : 0 < q.num := Rat.num_pos.mpr hq
  have hna : q.num.natAbs ≠ 0 := by
    have := Int.natAbs_pos.mpr hnum_pos.ne'
    omega
  have hd0 : q.den ≠ 0 := q.den_pos.ne'
  obtain ⟨ha1, ha2⟩ := nlog2_spec q.num.natAbs hna
  obtain ⟨hb1, hb2⟩ := nlog2_spec q.den hd0
  have hbq : (0:ℚ) < (q.den : ℚ) := by exact_mod_cast q.den_pos
  have hq' : q = ((q.num.natAbs : ℚ)) / ((q.den : ℚ)) := by
    conv_lhs => rw [← Rat.num_div_den q, ← Int.natAbs_of_nonneg hnum_pos.le,
      Int.cast_natCast]
  set α := nlog2 q.num.natAbs with hα
  set β := nlog2 q.den with hβ
  have haQ1 : (2:ℚ) ^ ((α:ℤ)) ≤ (q.num.natAbs : ℚ) := by
    rw [zpow_natCast]
    exact_mod_cast ha1
  have haQ2 : (q.num.natAbs : ℚ) < 2 ^ ((α:ℤ) + 1) := by
    have h : ((α:ℤ) + 1) = ((α + 1 : ℕ) : ℤ) := by push_cast; ring
    rw [h, zpow_natCast]
    exact_mod_cast ha2
  have hbQ1 : (2:ℚ) ^ ((β:ℤ)) ≤ (q.den : ℚ) := by
    rw [zpow_natCast]
    exact_mod_cast hb1
  have hbQ2 : (q.den : ℚ) < 2 ^ ((β:ℤ) + 1) := by
    have h : ((β:ℤ) + 1) = ((β + 1 : ℕ) : ℤ) := by push_cast; ring
    rw [h, zpow_natCast]
    exact_mod_cast hb2
  have hupper : q < (2:ℚ) ^ ((α:ℤ) - β + 1) := by
    rw [hq', div_lt_iff₀ hbq]
    calc (q.num.natAbs : ℚ) < 2 ^ ((α:ℤ) + 1) := haQ2
      _ = 2 ^ ((α:ℤ) - β + 1) * 2 ^ ((β:ℤ)) := by
          rw [← zpow_add₀ (by norm_num : (2:ℚ) ≠ 0)]
          congr 1
          ring
      _ ≤ 2 ^ ((α:ℤ) - β + 1) * (q.den : ℚ) :=
          mul_le_mul_of_nonneg_left hbQ1 (two_zpow_pos _).le
  have hlower : (2:ℚ) ^ ((α:ℤ) - β - 1) ≤ q := by
    rw [hq', le_div_iff₀ hbq]
    calc (2:ℚ) ^ ((α:ℤ) - β - 1) * (q.den : ℚ)
        ≤ 2 ^ ((α:ℤ) - β - 1) * 2 ^ ((β:ℤ) + 1) :=
          mul_le_mul_of_nonneg_left hbQ2.le (two_zpow_pos _).le
      _ = 2 ^ ((α:ℤ)) := by
          rw [← zpow_add₀ (by norm_num : (2:ℚ) ≠ 0)]
          congr 1
          ring
      _ ≤ (q.num.natAbs : ℚ) := haQ1
  unfold ilog2Q
  rw [← hα, ← hβ]
  split_ifs with hcase
  · exact ⟨hcase, hupper⟩
  · refine ⟨hlower, ?_⟩
    have h5 : (α:ℤ) - (β:ℤ) - 1 + 1 = (α:ℤ) - β := by ring
    rw [h5]
    exact not_le.mp hcase

/-- Rounding a nonnegative rational to the binary32 grid stays
nonnegative. -/
theorem fl32pos_nonneg (q : ℚ) (hq : 0 ≤ q) : 0 ≤ fl32pos q := by
  unfold fl32pos
  have h1 : (0:ℤ) ≤ rne (q * (2:ℚ) ^ ((23:ℤ) - ilog2Q q)) := by
    apply rne_ge_int _ _ (mul_nonneg hq (two_zpow_pos _).le)
    push_cast
    exact mul_nonneg hq (two_zpow_pos _).le
  exact mul_nonneg (by exact_mod_cast h1) (two_zpow_pos _).le

/-- Binary32 rounding preserves nonpositivity. -/
theorem fl32_nonpos (q : ℚ) (hq : q ≤ 0) : fl32 q ≤ 0 := by
  unfold fl32
  split_ifs with h1 h2
  · exact le_refl 0
  · exact neg_nonpos.mpr (fl32pos_nonneg _ (neg_nonneg.mpr h2.le))
  · exact absurd (le_antisymm hq (not_lt.mp h2)) h1

/-- Binary32 rounding of a value at least 1 stays at least 1 (1 is itself
on the grid, so nothing above it can round below it). -/
theorem fl32_ge_one (y : ℚ) (hy : 1 ≤ y) : 1 ≤ fl32 y := by
  have hy0 : (0:ℚ) < y := lt_of_lt_of_le one_pos hy
  obtain ⟨hl, hu⟩ := ilog2Q_spec y hy0
  have he0 : 0 ≤ ilog2Q y := by
    by_contra hneg
    push_neg at hneg
    have h1 : ilog2Q y + 1 ≤ 0 := by omega
    have h2 : (2:ℚ) ^ (ilog2Q y + 1) ≤ 1 := zpow_le_one_of_nonpos₀ (by norm_num) h1
    linarith
  have hsc : (0:ℚ) ≤ y * 2 ^ ((23:ℤ) - ilog2Q y) := mul_nonneg hy0.le (two_zpow_pos _).le
  have hn : (8388608 : ℤ) ≤ rne (y * 2 ^ ((23:ℤ) - ilog2Q y)) := by
    apply rne_ge_int _ _ hsc
    have h3 : (2:ℚ) ^ (ilog2Q y) * 2 ^ ((23:ℤ) - ilog2Q y) ≤ y * 2 ^ ((23:ℤ) - ilog2Q y) :=
      mul_le_mul_of_nonneg_right hl (two_zpow_pos _).le
    have h4 : (2:ℚ) ^ (ilog2Q y) * 2 ^ ((23:ℤ) - ilog2Q y) = 2 ^ (23:ℤ) := by
      rw [← zpow_add₀ (by norm_num : (2:ℚ) ≠ 0)]
      congr 1
      ring
    have h5 : ((8388608 : ℤ) : ℚ) = 2 ^ (23:ℤ) := by norm_num
    rw [h5]
    linarith
  unfold fl32
  rw [if_neg hy0.ne', if_neg (not_lt.mpr hy0.le)]
  unfold fl32pos
  calc (1:ℚ) = 2 ^ (0:ℤ) := (zpow_zero 2).symm
    _ ≤ 2 ^ (ilog2Q y) := zpow_le_zpow_right₀ (by norm_num) he0
    _ = 2 ^ (23:ℤ) * 2 ^ (ilog2Q y - 23) := by
        rw [← zpow_add₀ (by norm_num : (2:ℚ) ≠ 0)]
        congr 1
        ring
    _ ≤ ((rne (y * 2 ^ ((23:ℤ) - ilog2Q y)) : ℤ) : ℚ) * 2 ^ (ilog2Q y - 23) := by
        apply mul_le_mul_of_nonneg_right _ (two_zpow_pos _).le
        have h5 : ((8388608 : ℤ) : ℚ) = 2 ^ (23:ℤ) := by norm_num
        rw [← h5]
        exact_mod_cast hn

/-- Binary32 rounding of a positive value loses at most a `2^-24` relative
part downward (half an ulp). -/
theorem fl32_ge_sub (y : ℚ) (hy : 0 < y) : y - y / 2 ^ 24 ≤ fl32 y := by
  obtain ⟨hl, hu⟩ := ilog2Q_spec y hy
  have hsc : (0:ℚ) ≤ y * 2 ^ ((23:ℤ) - ilog2Q y) := mul_nonneg hy.le (two_zpow_pos _).le
  have h1 := rne_ge_sub_half _ hsc
  have h2 : (y * 2 ^ ((23:ℤ) - ilog2Q y) - 1/2) * 2 ^ (ilog2Q y - (23:ℤ)) ≤
      ((rne (y * 2 ^ ((23:ℤ) - ilog2Q y)) : ℤ) : ℚ) * 2 ^ (ilog2Q y - (23:ℤ)) :=
    mul_le_mul_of_nonneg_right h1 (two_zpow_pos _).le
  have h3 : (y * 2 ^ ((23:ℤ) - ilog2Q y) - 1/2) * 2 ^ (ilog2Q y - (23:ℤ)) =
      y - 2 ^ (ilog2Q y - (24:ℤ)) := by
    rw [sub_mul, mul_assoc, ← zpow_add₀ (by norm_num : (2:ℚ) ≠ 0)]
    have e1 : (23:ℤ) - ilog2Q y + (ilog2Q y - 23) = 0 := by ring
    rw [e1, zpow_zero, mul_one]
    congr 1
    have e2 : (1/2 : ℚ) = 2 ^ (-1 : ℤ) := by norm_num
    rw [e2, ← zpow_add₀ (by norm_num : (2:ℚ) ≠ 0)]
    congr 1
    ring
  have h4 : (2:ℚ) ^ (ilog2Q y - (24:ℤ)) ≤ y / 2 ^ 24 := by
    rw [le_div_iff₀ (by positivity : (0:ℚ) < 2 ^ 24)]
    have e3 : (2:ℚ) ^ (ilog2Q y - (24:ℤ)) * 2 ^ (24:ℕ) = 2 ^ (ilog2Q y) := by
      rw [← zpow_natCast (2:ℚ) 24, ← zpow_add₀ (by norm_num : (2:ℚ) ≠ 0)]
      congr 1
      push_cast
      ring
    rw [e3]
    exact hl
  unfold fl32
  rw [if_neg hy.ne', if_neg (not_lt.mpr hy.le)]
  unfold fl32pos
  linarith [h2, h3, h4]

/-- A negative integer volume clamps to exactly 0 (sign is preserved by
every rounding along the way, and `0.0f` is exact). -/
theorem clampVolume_neg (v : ℤ) (hv : v < 0) : clampVolume v = 0 := by
  have h1 : ((v:ℚ)) ≤ 0 := by exact_mod_cast hv.le
  have h2 : fl32 ((v:ℚ)) ≤ 0 := fl32_nonpos _ h1
  have h3 : fl32 ((v:ℚ)) / 100 ≤ 0 := by
    rw [div_nonpos_iff]
    right
    exact ⟨h2, by norm_num⟩
  have h4 : fl32 (fl32 ((v:ℚ)) / 100) ≤ 0 := fl32_nonpos _ h3
  unfold clampVolume
  have h5 : min (fl32 (fl32 ((v:ℚ)) / 100)) 1 ≤ 0 := le_trans (min_le_left _ _) h4
  exact max_eq_left h5

/-- An integer volume above 100 clamps to exactly 1: the rounded quotient
stays at or above 1, and `1.0f` is exact. -/
theorem clampVolume_big (v : ℤ) (hv : 100 < v) : clampVolume v = 1 := by
  have hv1 : (101 : ℚ) ≤ (v:ℚ) := by exact_mod_cast (by omega : (101:ℤ) ≤ v)
  have hvpos : (0:ℚ) < (v:ℚ) := by linarith
  have h1 := fl32_ge_sub _ hvpos
  have h2 : (100:ℚ) ≤ fl32 ((v:ℚ)) := by
    have h3 : ((v:ℚ)) - (v:ℚ) / 2 ^ 24 = (v:ℚ) * (1 - 1 / 2 ^ 24) := by ring
    have h4 : (101:ℚ) * (1 - 1 / 2 ^ 24) ≤ (v:ℚ) * (1 - 1 / 2 ^ 24) :=
      mul_le_mul_of_nonneg_right hv1 (by norm_num)
    have h5 : (100:ℚ) ≤ (101:ℚ) * (1 - 1 / 2 ^ 24) := by norm_num
    linarith
  have h6 : (1:ℚ) ≤ fl32 ((v:ℚ)) / 100 := by
    rw [le_div_iff₀ (by norm_num : (0:ℚ) < 100)]
    linarith
  have h7 : (1:ℚ) ≤ fl32 (fl32 ((v:ℚ)) / 100) := fl32_ge_one _ h6
  unfold clampVolume
  rw [min_eq_right h7, max_eq_right (by norm_num : (0:ℚ) ≤ 1)]

/-- Setting the gain of a live source and reading it back gives the set
value. -/
theorem srcGainD_set_self (w : ALWorld) (h : Nat) (g : ℚ)
    (hs : (w.sources h).isSome) : srcGainD (alSourceGainM h g w) h = g := by
  obtain ⟨src, hsrc⟩ := Option.isSome_iff_exists.mp hs
  unfold srcGainD alSourceGainM updSource
  simp [hsrc]

/-- Whatever the current-music handle, the volume read back after a set is
the truncation of the once-rounded product `clampVolume v * 100`. -/
theorem getMusicVolume_set (v : ℤ) (s : AudioState)
    (hok : s.currentMusicSource = 0 ∨ (s.al.sources s.currentMusicSource).isSome) :
    GetMusicVolume (SetMusicVolume v s) = cTrunc (fl32 (clampVolume v * 100)) := by
  by_cases hc : s.currentMusicSource = 0
  · simp only [GetMusicVolume, SetMusicVolume, hc]
    norm_num
  · have hs : (s.al.sources s.currentMusicSource).isSome := hok.resolve_left hc
    simp only [GetMusicVolume, SetMusicVolume, hc]
    norm_num
    intro _
    rw [if_neg hc, srcGainD_set_self _ _ _ hs]

set_option maxRecDepth 4000 in
unseal Rat.add Rat.sub Rat.mul Rat.inv in
/-- Exhaustive check of the in-range volumes 0–100: the binary32 round
trip `(int)(fl32(fl32(fl32(w)/100)·100))` lands on `w` or on `w - 1`
(e.g. 53 and 59 read back one low, 37 reads back exactly). -/
theorem readback_mid : ∀ w : ℕ, w < 101 →
    (cTrunc (fl32 (clampVolume (w:ℤ) * 100)) = (w:ℤ) ∨
     cTrunc (fl32 (clampVolume (w:ℤ) * 100)) = (w:ℤ) - 1) := by decide

unseal Rat.add Rat.sub Rat.mul Rat.inv in
/-- C2: for every integer `v`, `SetMusicVolume v` followed by
`GetMusicVolume` reads back `v` within integer rounding when `v` is in
[0, 100] (the binary32 arithmetic of `volume / 100.0f` and
`volume * 100.0f` can land the product just below `v`, so the truncation
returns `v` or `v - 1`), and returns the exactly clamped value for
out-of-range inputs: 0 for negative `v` such as -10 and 100 for `v` above
range such as 150.  The hypothesis is the module's own invariant that the
current-music handle is 0 or a live source. -/
theorem C2_set_get_music_volume (v : ℤ) (s : AudioState)
    (hok : s.currentMusicSource = 0 ∨ (s.al.sources s.currentMusicSource).isSome) :
    (0 ≤ v → v ≤ 100 →
      (GetMusicVolume (SetMusicVolume v s) = v ∨
       GetMusicVolume (SetMusicVolume v s) = v - 1)) ∧
    (v < 0 → GetMusicVolume (SetMusicVolume v s) = 0) ∧
    (100 < v → GetMusicVolume (SetMusicVolume v s) = 100) := by
  rw [getMusicVolume_set v s hok]
  refine ⟨?_, ?_, ?_⟩
  · intro h0 h100
    have hw : v = ((v.toNat : ℕ) : ℤ) := (Int.toNat_of_nonneg h0).symm
    have hlt : v.toNat < 101 := by omega
    have h := readback_mid v.toNat hlt
    rw [← hw] at h
    exact h
  · intro hv
    rw [clampVolume_neg v hv, zero_mul]
    decide
  · intro hv
    rw [clampVolume_big v hv, one_mul]
    decide

unseal Rat.add Rat.sub Rat.mul Rat.inv in
/-- Witness for C2 at concrete inputs: 37 reads back exactly, 53 reads
back 52 (the in-range rounding slack), -10 reads back 0 and 150 reads
back 100. -/
theorem C2_witness :
    GetMusicVolume (SetMusicVolume 37 readyState) = 37 ∧
    GetMusicVolume (SetMusicVolume 53 readyState) = 52 ∧
    GetMusicVolume (SetMusicVolume (-10) readyState) = 0 ∧
    GetMusicVolume (SetMusicVolume 150 readyState) = 100 := by
  refine ⟨?_, ?_, ?_, ?_⟩
  · rcases (C2_set_get_music_volume 37 readyState (Or.inl rfl)).1 (by norm_num) (by norm_num)
      with h | h
    · exact h
    · exact absurd h (by decide)
  · rcases (C2_set_get_music_volume 53 readyState (Or.inl rfl)).1 (by norm_num) (by norm_num)
      with h | h
    · exact absurd h (by decide)
    · exact h
  · exact (C2_set_get_music_volume (-10) readyState (Or.inl rfl)).2.1 (by norm_num)
  · exact (C2_set_get_music_volume 150 readyState (Or.inl rfl)).2.2 (by norm_num)

/-! ### Claim C6: decode failure leaves no buffer record -/

/-- C6: when decoding a not-yet-loaded path fails, `PlayMusic` and
`PlaySoundEffect` return false and the buffer map holds no record for that
path's key after the call. -/
theorem C6_decode_failure_no_buffer (decode : String → Bool) (p : String)
    (s : AudioState)
    (hinit : s.initialized = true)
    (hd : decode p = false)
    (hnew : lookupBuf (GenerateAudioKey p s).1 s.audioBuffers = none) :
    ((PlayMusic decode p s).1 = false ∧
      lookupBuf (GenerateAudioKey p s).1 (PlayMusic decode p s).2.audioBuffers = none) ∧
    ((PlaySoundEffect decode p s).1 = false ∧
      lookupBuf (GenerateAudioKey p s).1 (PlaySoundEffect decode p s).2.audioBuffers = none) := by
  have hbuf : (GenerateAudioKey p s).2.audioBuffers = s.audioBuffers := rfl
  constructor
  · simp only [PlayMusic, hinit, Bool.true_eq_false, if_false, ite_false, hbuf, hnew, hd]
    simp [hnew, hbuf]
  · simp only [PlaySoundEffect, hinit, Bool.true_eq_false, if_false, ite_false, hbuf, hnew, hd]
    simp [hnew, hbuf]

/-- Witness for C6 at a concrete input. -/
theorem C6_witness :
    readyState.initialized = true ∧ decodeNone "bad.wav" = false ∧
      (PlayMusic decodeNone "bad.wav" readyState).1 = false ∧
      (PlaySoundEffect decodeNone "bad.wav" readyState).1 = false := by
  have h := C6_decode_failure_no_buffer decodeNone "bad.wav" readyState rfl rfl rfl
  exact ⟨rfl, rfl, h.1.1, h.2.1⟩

/-! ### Claim C8: the unmute action resets gain to full volume -/

/-- Unfolding one step of the `OperateCurrentSounds` loop. -/
theorem opSoundsFold_cons (cur : Nat) (a : EAudioAction) (w : ALWorld) (h0 : Nat)
    (t : List Nat) :
    opSoundsFold cur a w (h0 :: t) =
      opSoundsFold cur a (if h0 = cur then w else applySoundAction a h0 w) t := rfl

/-- Once a handle's gain is 1, the rest of the unmute loop keeps it 1. -/
theorem opSounds_unmute_pres (cur : Nat) (hs : List Nat) :
    ∀ (w : ALWorld) (h : Nat),
      (∀ src, w.sources h = some src → src.gain = 1) →
      ∀ src, (opSoundsFold cur .kUnmute w hs).sources h = some src → src.gain = 1 := by
  induction hs with
  | nil => intro w h hw; exact hw
  | cons h0 t ih =>
      intro w h hw
      rw [opSoundsFold_cons]
      apply ih
      intro src hsrc
      by_cases hc : h0 = cur
      · rw [if_pos hc] at hsrc
        exact hw src hsrc
      · rw [if_neg hc] at hsrc
        by_cases hh : h = h0
        · subst hh
          simp only [applySoundAction, alSourceGainM, updSource, if_true] at hsrc
          rcases Option.map_eq_some'.mp hsrc with ⟨s0, _, hs0⟩
          rw [← hs0]
        · simp only [applySoundAction, alSourceGainM, updSource] at hsrc
          rw [if_neg hh] at hsrc
          exact hw src hsrc

/-- Every visited non-music handle ends the unmute loop with gain 1. -/
theorem opSounds_unmute_mem (cur : Nat) (hs : List Nat) :
    ∀ (w : ALWorld) (h : Nat), h ∈ hs → h ≠ cur →
      ∀ src, (opSoundsFold cur .kUnmute w hs).sources h = some src → src.gain = 1 := by
  induction hs with
  | nil => intro w h hmem; cases hmem
  | cons h0 t ih =>
      intro w h hmem hne src
      rw [opSoundsFold_cons]
      rcases List.mem_cons.mp hmem with rfl | hmem'
      · rw [if_neg hne]
        intro hsrc
        refine opSounds_unmute_pres cur t _ h ?_ src hsrc
        intro src' hsrc'
        simp only [applySoundAction, alSourceGainM, updSource, if_true] at hsrc'
        rcases Option.map_eq_some'.mp hsrc' with ⟨s0, _, hs0⟩
        rw [← hs0]
      · intro hsrc
        exact ih _ h hmem' hne src hsrc

/-- C8: after `OperateCurrentSounds` with the unmute action, every source
still registered on a buffer record, other than the current music source,
that is live in the OpenAL world has gain exactly 1 (full volume),
regardless of the volume it had before. -/
theorem C8_unmute_full_volume (s : AudioState) (hinit : s.initialized = true)
    (h : Nat)
    (hmem : h ∈ ((OperateCurrentSounds .kUnmute s).audioBuffers.map
      (fun e => e.2.sources)).flatten)
    (hne : h ≠ (OperateCurrentSounds .kUnmute s).currentMusicSource)
    (src : ALSource)
    (hsrc : (OperateCurrentSounds .kUnmute s).al.sources h = some src) :
    src.gain = 1 := by
  simp only [OperateCurrentSounds, hinit, Bool.true_eq_false, if_false, ite_false]
    at hmem hne hsrc
  exact opSounds_unmute_mem _ _ _ h hmem hne src hsrc

/-- Witness for C8: a concrete playing sound effect, unmuted. -/
theorem C8_witness :
    ((OperateCurrentSounds .kUnmute (PlaySoundEffect decodeAll "s.wav" readyState).2).al.sources 1 =
      some { gain := 1, sstate := .playing, looping := false, posX := 0, posY := 0 }) ∧
    ({ gain := 1, sstate := .playing, looping := false, posX := 0, posY := 0 } : ALSource).gain = 1 := by
  refine ⟨by decide, ?_⟩
  exact C8_unmute_full_volume (PlaySoundEffect decodeAll "s.wav" readyState).2 (by decide)
    1 (by decide) (by decide) _ (by decide)

/-! ### Claim C4: fade-out completion -/

/-- Ticks do nothing when no fade is in progress. -/
theorem updateFading_not_fading (s : AudioState) (h : s.musicFading = false) :
    UpdateFading s = s := by
  unfold UpdateFading
  simp [h]

/-- Iterated ticks do nothing when no fade is in progress. -/
theorem updateFading_iter_not_fading (s : AudioState) (h : s.musicFading = false) :
    ∀ n, UpdateFading^[n] s = s := by
  intro n
  induction n with
  | zero => rfl
  | succ m ih => rw [Function.iterate_succ_apply, updateFading_not_fading s h, ih]

/-- Completion tick of a fade whose target is silence. -/
theorem updateFading_complete_zero (s : AudioState)
    (hf : s.musicFading = true) (hc : s.currentMusicSource ≠ 0)
    (hr : s.fadeTimeRemaining - 2/125 ≤ 0) (ht : s.fadeTargetVolume = 0) :
    UpdateFading s =
      { s with
        musicFading := false,
        fadeTimeRemaining := s.fadeTimeRemaining - 2/125,
        al := alSourceStopM s.currentMusicSource
          (alSourceGainM s.currentMusicSource s.fadeTargetVolume s.al),
        callbackCount := if s.hasCallback then s.callbackCount + 1 else s.callbackCount } := by
  unfold UpdateFading
  rw [if_neg (by simp [hf, hc]), if_pos hr, if_pos ht]

/-- Completion tick of a fade whose target is not silence. -/
theorem updateFading_complete_pos (s : AudioState)
    (hf : s.musicFading = true) (hc : s.currentMusicSource ≠ 0)
    (hr : s.fadeTimeRemaining - 2/125 ≤ 0) (ht : s.fadeTargetVolume ≠ 0) :
    UpdateFading s =
      { s with
        musicFading := false,
        fadeTimeRemaining := s.fadeTimeRemaining - 2/125,
        al := alSourceGainM s.currentMusicSource s.fadeTargetVolume s.al } := by
  unfold UpdateFading
  rw [if_neg (by simp [hf, hc]), if_pos hr, if_neg ht]

/-- Intermediate tick of a fade that has not yet run out. -/
theorem updateFading_step (s : AudioState)
    (hf : s.musicFading = true) (hc : s.currentMusicSource ≠ 0)
    (hr : ¬(s.fadeTimeRemaining - 2/125 ≤ 0)) :
    UpdateFading s =
      { s with
        fadeTimeRemaining := s.fadeTimeRemaining - 2/125,
        al := alSourceGainM s.currentMusicSource
          (s.fadeStartVolume + (s.fadeTargetVolume - s.fadeStartVolume) *
            (1 - (s.fadeTimeRemaining - 2/125) / s.fadeDuration)) s.al } := by
  unfold UpdateFading
  rw [if_neg (by simp [hf, hc]), if_neg hr]

/-- Point updates keep a handle live. -/
theorem isSome_updSource_self (w : ALWorld) (h : Nat) (f : ALSource → ALSource)
    (hs : (w.sources h).isSome) : ((updSource h f w).sources h).isSome := by
  unfold updSource
  simp only [if_pos rfl]
  rcases Option.isSome_iff_exists.mp hs with ⟨src, hsrc⟩
  rw [hsrc]
  rfl

/-- Stopping a live source reports it stopped. -/
theorem srcStateD_stop_self (w : ALWorld) (h : Nat)
    (hs : (w.sources h).isSome) : srcStateD (alSourceStopM h w) h = .stopped := by
  rcases Option.isSome_iff_exists.mp hs with ⟨src, hsrc⟩
  unfold srcStateD alSourceStopM updSource
  simp [hsrc]

/-- Stopping a source does not change its gain. -/
theorem srcGainD_stop (w : ALWorld) (h : Nat) :
    srcGainD (alSourceStopM h w) h = srcGainD w h := by
  unfold srcGainD alSourceStopM updSource
  simp only [if_pos rfl]
  cases w.sources h <;> rfl

/-- C4: a fade advanced past its duration by enough `UpdateFading` ticks
ends with the fade flag cleared and the current source's gain at the fade
target; when the target is silence the source is stopped and the
registered completion callback has been invoked exactly once, and no
further tick changes the state (so the callback cannot fire again). -/
theorem C4_fade_completion (s : AudioState) (n : ℕ)
    (hf : s.musicFading = true)
    (hc : s.currentMusicSource ≠ 0)
    (hv : (s.al.sources s.currentMusicSource).isSome)
    (hcb : s.hasCallback = true)
    (hn : 1 ≤ n)
    (hr : s.fadeTimeRemaining ≤ n * (2/125)) :
    (UpdateFading^[n] s).musicFading = false ∧
    srcGainD (UpdateFading^[n] s).al s.currentMusicSource = s.fadeTargetVolume ∧
    (s.fadeTargetVolume = 0 →
      srcStateD (UpdateFading^[n] s).al s.currentMusicSource = .stopped ∧
      (UpdateFading^[n] s).callbackCount = s.callbackCount + 1) ∧
    (s.fadeTargetVolume ≠ 0 →
      (UpdateFading^[n] s).callbackCount = s.callbackCount) ∧
    (∀ m, UpdateFading^[m] (UpdateFading^[n] s) = UpdateFading^[n] s) := by
  induction n generalizing s with
  | zero => omega
  | succ m ih =>
      by_cases hdone : s.fadeTimeRemaining - 2/125 ≤ 0
      · by_cases ht : s.fadeTargetVolume = 0
        · rw [Function.iterate_succ_apply, updateFading_complete_zero s hf hc hdone ht,
              updateFading_iter_not_fading _ rfl m]
          refine ⟨rfl, ?_, fun _ => ⟨?_, ?_⟩, fun hne => absurd ht hne, ?_⟩
          · rw [srcGainD_stop, srcGainD_set_self _ _ _ hv]
          · exact srcStateD_stop_self _ _ (isSome_updSource_self _ _ _ hv)
          · simp [hcb]
          · intro k
            exact updateFading_iter_not_fading _ rfl k
        · rw [Function.iterate_succ_apply, updateFading_complete_pos s hf hc hdone ht,
              updateFading_iter_not_fading _ rfl m]
          refine ⟨rfl, ?_, fun h0 => absurd h0 ht, fun _ => rfl, ?_⟩
          · rw [srcGainD_set_self _ _ _ hv]
          · intro k
            exact updateFading_iter_not_fading _ rfl k
      · have hm : 1 ≤ m := by
          rcases Nat.eq_zero_or_pos m with rfl | hpos
          · exfalso
            apply hdone
            have : (((0:ℕ) + 1 : ℕ) : ℚ) * (2/125) = 2/125 := by norm_num
            rw [this] at hr
            linarith
          · exact hpos
        rw [Function.iterate_succ_apply, updateFading_step s hf hc hdone]
        have := ih
          { s with
            fadeTimeRemaining := s.fadeTimeRemaining - 2/125,
            al := alSourceGainM s.currentMusicSource
              (s.fadeStartVolume + (s.fadeTargetVolume - s.fadeStartVolume) *
                (1 - (s.fadeTimeRemaining - 2/125) / s.fadeDuration)) s.al }
          hf hc (isSome_updSource_self _ _ _ hv) hcb hm
          (by
            show s.fadeTimeRemaining - 2/125 ≤ (m : ℚ) * (2/125)
            have hcast : ((m + 1 : ℕ) : ℚ) = (m : ℚ) + 1 := by push_cast; ring
            rw [hcast] at hr
            linarith)
        exact this

unseal Rat.add Rat.sub Rat.mul Rat.inv in
/-- Witness for C4: fade out 48 ms of a playing track, tick four times. -/
theorem C4_witness :
    (UpdateFading^[4]
      (FadeOutMusic 48 (SetFinishMusicCallback true
        (PlayMusic decodeAll "w.wav" readyState).2))).callbackCount = 1 := by
  have h := C4_fade_completion
    (FadeOutMusic 48 (SetFinishMusicCallback true (PlayMusic decodeAll "w.wav" readyState).2))
    4 (by decide) (by decide) (by decide) (by decide) (by decide)
    (by
      have hft :
          (FadeOutMusic 48 (SetFinishMusicCallback true
            (PlayMusic decodeAll "w.wav" readyState).2)).fadeTimeRemaining = 6/125 := by decide
      rw [hft]
      norm_num)
  have h2 := (h.2.2.1 (by decide)).2
  rw [h2]
  decide

/-! ### Claim C3: playing a second music path -/

/-- A handle is the active music instance when it is nonzero, is the
current music source, and is live in the OpenAL world. -/
def musicInstanceActive (s : AudioState) (h : Nat) : Prop :=
  h ≠ 0 ∧ s.currentMusicSource = h ∧ (s.al.sources h).isSome

/-- C3: a successful `PlayMusic` call made while a music instance is
active leaves exactly one active music instance, namely the newly created
source; the previous source is stopped and released (deleted from the
OpenAL world), is not the current music any more, and `IsMusicPlaying` now
reports on the new playing source only. -/
theorem C3_play_second_music (d : String → Bool) (p : String) (s : AudioState)
    (hcur : s.currentMusicSource ≠ 0)
    (hlt : s.currentMusicSource < s.al.nextSource)
    (hsucc : (PlayMusic d p s).1 = true) :
    ((PlayMusic d p s).2.al.sources s.currentMusicSource = none) ∧
    ((PlayMusic d p s).2.currentMusicSource ≠ s.currentMusicSource) ∧
    ((PlayMusic d p s).2.currentMusicSource ≠ 0) ∧
    (∃ src, (PlayMusic d p s).2.al.sources (PlayMusic d p s).2.currentMusicSource = some src ∧
      src.sstate = ALSrcState.playing) ∧
    IsMusicPlaying (PlayMusic d p s).2 = true ∧
    (∃! h, musicInstanceActive (PlayMusic d p s).2 h) ∧
    ¬ musicInstanceActive (PlayMusic d p s).2 s.currentMusicSource := by
  have hinit : s.initialized = true := by
    cases hb : s.initialized
    · rw [PlayMusic] at hsucc
      rw [hb] at hsucc
      simp at hsucc
    · rfl
  have hns : s.al.nextSource ≠ 0 := by omega
  have hne : s.currentMusicSource ≠ s.al.nextSource := Nat.ne_of_lt hlt
  simp only [PlayMusic, GenerateAudioKey, hinit, Bool.true_eq_false, if_false, ite_false]
    at hsucc ⊢
  rw [if_pos hcur, if_pos hcur] at hsucc ⊢
  rcases hlk : lookupBuf (genKeyK p s.keys).1 s.audioBuffers with _ | b
  · simp only [hlk] at hsucc ⊢
    rcases hd : d p with _ | _
    · simp only [hd, Bool.false_eq_true, if_false, ite_false] at hsucc
    · simp only [hd, if_true, ite_true] at hsucc ⊢
      simp only [playMusicAttach, CreateSource, delSource, alSourceStopM, updSource]
        at hsucc ⊢
      rw [if_neg hns] at hsucc ⊢
      refine ⟨?_, ?_, ?_, ?_, ?_, ?_, ?_⟩
      · simp only [alSourcePlayM, alSourceGainM, updSource]
        simp [hne, hcur]
      · simpa using fun hx => hne hx.symm
      · simpa using hns
      · refine ⟨(⟨s.musicVolume, ALSrcState.playing, false, 0, 0⟩ : ALSource), ?_, rfl⟩
        simp only [alSourcePlayM, alSourceGainM, updSource]
        simp [defaultALSource]
      · simp only [IsMusicPlaying]
        rw [if_neg hns]
        simp only [alSourcePlayM, alSourceGainM, updSource, srcStateD]
        simp
      · refine ⟨s.al.nextSource, ⟨hns, rfl, ?_⟩, ?_⟩
        · simp only [alSourcePlayM, alSourceGainM, updSource]
          simp
        · rintro y ⟨hy0, hy, hylive⟩
          exact hy.symm
      · rintro ⟨h0, hcm, hlive⟩
        exact hne (by simpa using hcm.symm)
  · simp only [hlk] at hsucc ⊢
    simp only [playMusicAttach, CreateSource, delSource, alSourceStopM, updSource]
      at hsucc ⊢
    rw [if_neg hns] at hsucc ⊢
    refine ⟨?_, ?_, ?_, ?_, ?_, ?_, ?_⟩
    · simp only [alSourcePlayM, alSourceGainM, updSource]
      simp [hne, hcur]
    · simpa using fun hx => hne hx.symm
    · simpa using hns
    · refine ⟨(⟨s.musicVolume, ALSrcState.playing, false, 0, 0⟩ : ALSource), ?_, rfl⟩
      simp only [alSourcePlayM, alSourceGainM, updSource]
      simp [defaultALSource]
    · simp only [IsMusicPlaying]
      rw [if_neg hns]
      simp only [alSourcePlayM, alSourceGainM, updSource, srcStateD]
      simp
    · refine ⟨s.al.nextSource, ⟨hns, rfl, ?_⟩, ?_⟩
      · simp only [alSourcePlayM, alSourceGainM, updSource]
        simp
      · rintro y ⟨hy0, hy, hylive⟩
        exact hy.symm
    · rintro ⟨h0, hcm, hlive⟩
      exact hne (by simpa using hcm.symm)

/-- Witness for C3: play "a.wav", then "b.wav". -/
theorem C3_witness :
    ((PlayMusic decodeAll "b.wav" (PlayMusic decodeAll "a.wav" readyState).2).2.al.sources
        (PlayMusic decodeAll "a.wav" readyState).2.currentMusicSource = none) ∧
    ((PlayMusic decodeAll "b.wav" (PlayMusic decodeAll "a.wav" readyState).2).2.currentMusicSource ≠
      (PlayMusic decodeAll "a.wav" readyState).2.currentMusicSource) ∧
    IsMusicPlaying (PlayMusic decodeAll "b.wav" (PlayMusic decodeAll "a.wav" readyState).2).2 = true := by
  have h := C3_play_second_music decodeAll "b.wav" (PlayMusic decodeAll "a.wav" readyState).2
    (by decide) (by decide) (by decide)
  exact ⟨h.1, h.2.1, h.2.2.2.2.1⟩

/-! ### Claim C5: freeing a key -/

/-- Lookup of an erased key fails. -/
theorem lookupBuf_eraseBuf_self (k : Nat) (l : List (Nat × AudioBuffer)) :
    lookupBuf k (eraseBuf k l) = none := by
  unfold lookupBuf eraseBuf
  rw [Option.map_eq_none', List.find?_eq_none]
  intro x hx
  rcases List.mem_filter.mp hx with ⟨-, hx2⟩
  simpa using hx2

/-- Erasure preserves lookup failure of any key. -/
theorem lookupBuf_eraseBuf_none (j k : Nat) (l : List (Nat × AudioBuffer))
    (h : lookupBuf j l = none) : lookupBuf j (eraseBuf k l) = none := by
  unfold lookupBuf at h
  unfold lookupBuf eraseBuf
  rw [Option.map_eq_none', List.find?_eq_none]
  rw [Option.map_eq_none', List.find?_eq_none] at h
  intro x hx
  exact h x (List.mem_filter.mp hx).1

/-- After erasing the unique key bound to a path, the table scan misses. -/
theorem findKeyOfPath_erase_unique (path : String) (k : Nat)
    (tbl : List (Nat × String))
    (huniq : ∀ k2, (k2, path) ∈ tbl → k2 = k) :
    findKeyOfPath path (eraseKey k tbl) = none := by
  unfold findKeyOfPath eraseKey
  rw [Option.map_eq_none', List.find?_eq_none]
  intro x hx
  rcases List.mem_filter.mp hx with ⟨hx1, hx2⟩
  intro hpath
  have hxpair : (x.1, path) ∈ tbl := by
    have hxe : x = (x.1, x.2) := rfl
    rw [hxe] at hx1
    rwa [show x.2 = path from by simpa using hpath] at hx1
  have hxk := huniq x.1 hxpair
  simp only [hxk] at hx2
  simp at hx2

/-- A handle already dead stays dead through a free sweep. -/
theorem freeSources_none_pres (ss : List Nat) :
    ∀ (w : ALWorld) (h : Nat), w.sources h = none →
      (freeSources ss w).sources h = none := by
  induction ss with
  | nil => intro w h hw; exact hw
  | cons h0 t ih =>
      intro w h hw
      show (freeSources t (delSource h0 (alSourceStopM h0 w))).sources h = none
      apply ih
      by_cases hh : h = h0
      · subst hh
        simp [delSource]
      · simp only [delSource, alSourceStopM, updSource]
        rw [if_neg hh, if_neg hh, hw]

/-- Every handle listed in a freed record is deleted from the world. -/
theorem freeSources_mem (ss : List Nat) :
    ∀ (w : ALWorld) (h : Nat), h ∈ ss → (freeSources ss w).sources h = none := by
  induction ss with
  | nil => intro w h hmem; cases hmem
  | cons h0 t ih =>
      intro w h hmem
      show (freeSources t (delSource h0 (alSourceStopM h0 w))).sources h = none
      rcases List.mem_cons.mp hmem with rfl | hmem2
      · apply freeSources_none_pres
        simp [delSource]
      · exact ih _ h hmem2

unseal Rat.add Rat.sub Rat.mul Rat.inv in
/-- C5 counterexample: the claim asserts that after freeing a loaded key,
type queries on its path return the sentinel "other" format and that
freeing by either free routine resets current-music state when the key was
the current music.  Playing "song.wav" (key 1) and freeing key 1 removes
the record, yet `GetMusicType "song.wav"` still returns `kWav` (the type
query is pure extension parsing, independent of load state); and
`FreeSoundByKey` on the current music's key leaves the current-music state
in place. -/
theorem C5_counterexample :
    ((lookupBuf 1 (PlayMusic decodeAll "song.wav" readyState).2.audioBuffers).isSome = true) ∧
    lookupBuf 1 (FreeMusicByKey 1 (PlayMusic decodeAll "song.wav" readyState).2).audioBuffers = none ∧
    GetMusicType "song.wav" = EAudioFormat.kWav ∧
    EAudioFormat.kWav ≠ EAudioFormat.kOthers ∧
    (PlayMusic decodeAll "song.wav" readyState).2.currentMusicPathKey = 1 ∧
    (FreeSoundByKey 1 (PlayMusic decodeAll "song.wav" readyState).2).currentMusicPathKey = 1 ∧
    (FreeSoundByKey 1 (PlayMusic decodeAll "song.wav" readyState).2).currentMusicSource = 1 := by
  refine ⟨?_, ?_, ?_, ?_, ?_, ?_, ?_⟩ <;> decide

/-- C5 as amended: freeing a loaded key `k` with either free routine
removes its buffer record and deletes its instances, and subsequent
`GetSoundVolume` on the key's path returns the sentinel 0;
`FreeMusicByKey` additionally resets the current-music state to none when
`k` was the current music, while `FreeSoundByKey` does not touch the
current-music state; and `GetMusicType` is a pure function of the path,
unaffected by freeing.  The coherence hypotheses (cache and table map the
path only to `k`, and the next fresh key has no record) hold in every
reachable state. -/
theorem C5_amended (k : Nat) (path : String) (s : AudioState) (b : AudioBuffer)
    (hk : lookupBuf k s.audioBuffers = some b)
    (hcache : s.keys.cachePath = path → s.keys.cacheKey = k)
    (htable : ∀ k2, (k2, path) ∈ s.keys.table → k2 = k)
    (hfresh : lookupBuf s.keys.next s.audioBuffers = none) :
    lookupBuf k (FreeMusicByKey k s).audioBuffers = none ∧
    (∀ h2, h2 ∈ b.sources → (FreeMusicByKey k s).al.sources h2 = none) ∧
    (k = s.currentMusicPathKey →
      (FreeMusicByKey k s).currentMusicPathKey = 0 ∧
      (FreeMusicByKey k s).currentMusicSource = 0) ∧
    (GetSoundVolume path (FreeMusicByKey k s)).1 = 0 ∧
    lookupBuf k (FreeSoundByKey k s).audioBuffers = none ∧
    (∀ h2, h2 ∈ b.sources → (FreeSoundByKey k s).al.sources h2 = none) ∧
    (GetSoundVolume path (FreeSoundByKey k s)).1 = 0 ∧
    (FreeSoundByKey k s).currentMusicPathKey = s.currentMusicPathKey ∧
    (FreeSoundByKey k s).currentMusicSource = s.currentMusicSource := by
  have hfm : FreeMusicByKey k s =
      { s with
        al := freeSources b.sources s.al,
        audioBuffers := eraseBuf k s.audioBuffers,
        keys := { s.keys with table := eraseKey k s.keys.table },
        currentMusicPathKey :=
          if k = s.currentMusicPathKey then 0 else s.currentMusicPathKey,
        currentMusicSource :=
          if k = s.currentMusicPathKey then 0 else s.currentMusicSource } := by
    unfold FreeMusicByKey
    rw [hk]
  have hfs : FreeSoundByKey k s =
      { s with
        al := freeSources b.sources s.al,
        audioBuffers := eraseBuf k s.audioBuffers,
        keys := { s.keys with table := eraseKey k s.keys.table } } := by
    unfold FreeSoundByKey
    rw [hk]
  refine ⟨?_, ?_, ?_, ?_, ?_, ?_, ?_, ?_, ?_⟩
  · rw [hfm]
    exact lookupBuf_eraseBuf_self k s.audioBuffers
  · intro h2 hmem
    rw [hfm]
    exact freeSources_mem b.sources s.al h2 hmem
  · intro hck
    rw [hfm]
    constructor
    · show (if k = s.currentMusicPathKey then 0 else s.currentMusicPathKey) = 0
      rw [if_pos hck]
    · show (if k = s.currentMusicPathKey then 0 else s.currentMusicSource) = 0
      rw [if_pos hck]
  · rw [hfm]
    simp only [GetSoundVolume, GenerateAudioKey, genKeyK]
    by_cases hcp : s.keys.cachePath = path
    · rw [if_pos hcp]
      have hkk : s.keys.cacheKey = k := hcache hcp
      simp only [hkk, lookupBuf_eraseBuf_self]
    · rw [if_neg hcp]
      rw [findKeyOfPath_erase_unique path k s.keys.table htable]
      simp only [lookupBuf_eraseBuf_none _ _ _ hfresh]
  · rw [hfs]
    exact lookupBuf_eraseBuf_self k s.audioBuffers
  · intro h2 hmem
    rw [hfs]
    exact freeSources_mem b.sources s.al h2 hmem
  · rw [hfs]
    simp only [GetSoundVolume, GenerateAudioKey, genKeyK]
    by_cases hcp : s.keys.cachePath = path
    · rw [if_pos hcp]
      have hkk : s.keys.cacheKey = k := hcache hcp
      simp only [hkk, lookupBuf_eraseBuf_self]
    · rw [if_neg hcp]
      rw [findKeyOfPath_erase_unique path k s.keys.table htable]
      simp only [lookupBuf_eraseBuf_none _ _ _ hfresh]
  · rw [hfs]
  · rw [hfs]

unseal Rat.add Rat.sub Rat.mul Rat.inv in
/-- Witness for the amended C5 at a concrete loaded key. -/
theorem C5_witness :
    (GetSoundVolume "song.wav"
      (FreeMusicByKey 1 (PlayMusic decodeAll "song.wav" readyState).2)).1 = 0 ∧
    (FreeMusicByKey 1 (PlayMusic decodeAll "song.wav" readyState).2).currentMusicSource = 0 ∧
    (GetSoundVolume "song.wav"
      (FreeSoundByKey 1 (PlayMusic decodeAll "song.wav" readyState).2)).1 = 0 := by
  have h := C5_amended 1 "song.wav" (PlayMusic decodeAll "song.wav" readyState).2
    { buffer := 1, sources := [1] }
    (by decide) (by decide)
    (by
      intro k2 hmem
      have htab : (PlayMusic decodeAll "song.wav" readyState).2.keys.table =
          [(1, "song.wav")] := by decide
      rw [htab] at hmem
      have h2 := List.mem_singleton.mp hmem
      exact congrArg Prod.fst h2)
    (by decide)
  refine ⟨h.2.2.2.1, ?_, h.2.2.2.2.2.2.1⟩
  exact (h.2.2.1 (by decide)).2


/-! ### Claims C1 and C9: key generation over operation sequences

The key counter is a wrapping `uint32_t`; the invariants below hold while
fewer than 2 ^ 32 keys have been generated. -/

/-- Numeric value of the counter modulus. -/
theorem u32_eq : u32 = 4294967296 := by norm_num [u32]

/-- Membership after erasing a key. -/
theorem mem_eraseKey (e : Nat × String) (k : Nat) (l : List (Nat × String)) :
    e ∈ eraseKey k l ↔ e ∈ l ∧ e.1 ≠ k := by
  unfold eraseKey
  simp [List.mem_filter]

/-- A miss of the table scan means no entry carries the path. -/
theorem findKeyOfPath_none_iff (path : String) (l : List (Nat × String)) :
    findKeyOfPath path l = none ↔ ∀ e ∈ l, e.2 ≠ path := by
  unfold findKeyOfPath
  rw [Option.map_eq_none', List.find?_eq_none]
  simp

/-- A hit of the table scan yields an entry of the table. -/
theorem findKeyOfPath_some (path : String) (l : List (Nat × String)) (k : Nat)
    (h : findKeyOfPath path l = some k) : (k, path) ∈ l := by
  unfold findKeyOfPath at h
  rcases Option.map_eq_some'.mp h with ⟨e, he, hek⟩
  have hmem := List.mem_of_find?_eq_some he
  have hpred := List.find?_some he
  have hp2 : e.2 = path := by simpa using hpred
  have hee : e = (k, path) := by
    rcases e with ⟨e1, e2⟩
    simp only at hek hp2
    rw [hek, hp2]
  rwa [hee] at hmem

/-- Branch equation of `genKeyK`: cache hit. -/
theorem genKeyK_cache_eq (path : String) (ks : KeyState) (h : ks.cachePath = path) :
    genKeyK path ks =
      (ks.cacheKey, { ks with hist := ks.hist ++ [(ks.cacheKey, path)] }) := by
  unfold genKeyK
  rw [if_pos h]

/-- Branch equation of `genKeyK`: table hit. -/
theorem genKeyK_table_eq (path : String) (ks : KeyState) (h : ks.cachePath ≠ path)
    (k0 : Nat) (hf : findKeyOfPath path ks.table = some k0) :
    genKeyK path ks =
      (k0, { ks with cachePath := path, cacheKey := k0,
                     hist := ks.hist ++ [(k0, path)] }) := by
  unfold genKeyK
  rw [if_neg h, hf]

/-- Branch equation of `genKeyK`: fresh key from the wrapping counter. -/
theorem genKeyK_fresh_eq (path : String) (ks : KeyState) (h : ks.cachePath ≠ path)
    (hf : findKeyOfPath path ks.table = none) :
    genKeyK path ks =
      (ks.next,
       { next := (ks.next + 1) % u32,
         table := (ks.next, path) :: eraseKey ks.next ks.table,
         cachePath := path,
         cacheKey := ks.next,
         hist := ks.hist ++ [(ks.next, path)] }) := by
  unfold genKeyK
  rw [if_neg h, hf]

/-- Reachability invariant of the key-management state (while the counter
has not wrapped): the counter dominates every key of the table, of the
cache and of the history; the table is functional in both directions; the
cache and the history are coherent with the table; and a key appears in
the history with at most one path. -/
structure KeyInv (ks : KeyState) : Prop where
  next_pos : 1 ≤ ks.next
  next_lt : ks.next < u32
  table_bound : ∀ k p, (k, p) ∈ ks.table → 1 ≤ k ∧ k < ks.next
  table_keyFun : ∀ k p q, (k, p) ∈ ks.table → (k, q) ∈ ks.table → p = q
  table_pathFun : ∀ k j p, (k, p) ∈ ks.table → (j, p) ∈ ks.table → k = j
  cache_lt : ks.cacheKey < ks.next
  cache_zero : ks.cacheKey = 0 → ks.cachePath = ""
  cache_coh : ∀ k, (k, ks.cachePath) ∈ ks.table → k = ks.cacheKey
  cache_tbl : ∀ q, (ks.cacheKey, q) ∈ ks.table → q = ks.cachePath
  cache_hist : ∀ p, (ks.cacheKey, p) ∈ ks.hist → p = ks.cachePath
  hist_bound : ∀ k p, (k, p) ∈ ks.hist → (k = 0 ∧ p = "") ∨ (1 ≤ k ∧ k < ks.next)
  hist_keyFun : ∀ k p q, (k, p) ∈ ks.hist → (k, q) ∈ ks.hist → p = q
  tbl_hist : ∀ k p, (k, p) ∈ ks.table → ∀ q, (k, q) ∈ ks.hist → q = p

/-- Additional invariant of free-less runs: every history entry with a
non-empty path is still in the table, and so is the cache entry. -/
structure KeyNF (ks : KeyState) : Prop where
  hist_tbl : ∀ k p, (k, p) ∈ ks.hist → p ≠ "" → (k, p) ∈ ks.table
  cache_mem : ks.cachePath ≠ "" → (ks.cacheKey, ks.cachePath) ∈ ks.table

/-- The constructor state satisfies the invariant. -/
theorem keyInv_initial : KeyInv initialState.keys := by
  constructor <;> simp [initialState, u32]

/-- The constructor state satisfies the free-less invariant. -/
theorem keyNF_initial : KeyNF initialState.keys := by
  constructor <;> simp [initialState]

/-- One `GenerateAudioKey` call preserves the invariant when the counter
has room, moves the counter up by at most one, and appends exactly the
returned pair to the ghost history. -/
theorem genKeyK_inv (path : String) (ks : KeyState) (hI : KeyInv ks)
    (hroom : ks.next + 1 < u32) :
    KeyInv (genKeyK path ks).2 ∧
    ks.next ≤ (genKeyK path ks).2.next ∧
    (genKeyK path ks).2.next ≤ ks.next + 1 ∧
    (genKeyK path ks).2.hist = ks.hist ++ [((genKeyK path ks).1, path)] := by
  by_cases hcp : ks.cachePath = path
  · rw [genKeyK_cache_eq path ks hcp]
    refine ⟨?_, Nat.le_refl _, Nat.le_succ _, rfl⟩
    constructor
    · exact hI.next_pos
    · exact hI.next_lt
    · exact hI.table_bound
    · exact hI.table_keyFun
    · exact hI.table_pathFun
    · exact hI.cache_lt
    · exact hI.cache_zero
    · exact hI.cache_coh
    · exact hI.cache_tbl
    ·
      intro p hm
      rcases List.mem_append.mp hm with hm | hm
      · exact hI.cache_hist p hm
      · have hm2 : ks.cacheKey = ks.cacheKey ∧ p = path := by simpa using hm
        rw [hm2.2, ← hcp]
    ·
      intro k p hm
      rcases List.mem_append.mp hm with hm | hm
      · exact hI.hist_bound k p hm
      · have hm2 : k = ks.cacheKey ∧ p = path := by simpa using hm
        rcases Nat.eq_zero_or_pos ks.cacheKey with hz | hpos
        · left
          rw [hm2.1, hz, hm2.2, ← hcp]
          exact ⟨rfl, hI.cache_zero hz⟩
        · right
          rw [hm2.1]
          exact ⟨hpos, hI.cache_lt⟩
    ·
      intro k p q hp hq
      rcases List.mem_append.mp hp with hp | hp <;>
        rcases List.mem_append.mp hq with hq | hq
      · exact hI.hist_keyFun k p q hp hq
      · have hq2 : k = ks.cacheKey ∧ q = path := by simpa using hq
        rw [hq2.2, ← hcp]
        exact hI.cache_hist p (hq2.1 ▸ hp)
      · have hp2 : k = ks.cacheKey ∧ p = path := by simpa using hp
        rw [hp2.2, ← hcp]
        exact (hI.cache_hist q (hp2.1 ▸ hq)).symm
      · have hp2 : k = ks.cacheKey ∧ p = path := by simpa using hp
        have hq2 : k = ks.cacheKey ∧ q = path := by simpa using hq
        rw [hp2.2, hq2.2]
    ·
      intro k p hkp q hq
      rcases List.mem_append.mp hq with hq | hq
      · exact hI.tbl_hist k p hkp q hq
      · have hq2 : k = ks.cacheKey ∧ q = path := by simpa using hq
        rw [hq2.2, ← hcp]
        exact (hI.cache_tbl p (hq2.1 ▸ hkp)).symm
  · rcases hf : findKeyOfPath path ks.table with _ | k0
    · rw [genKeyK_fresh_eq path ks hcp hf]
      have hnone := (findKeyOfPath_none_iff path ks.table).mp hf
      have hmod : (ks.next + 1) % u32 = ks.next + 1 := Nat.mod_eq_of_lt hroom
      have hmem : ∀ k p, (k, p) ∈ (ks.next, path) :: eraseKey ks.next ks.table →
          (k = ks.next ∧ p = path) ∨ ((k, p) ∈ ks.table ∧ k ≠ ks.next) := by
        intro k p hm
        rcases List.mem_cons.mp hm with hm | hm
        · left
          simpa using hm
        · right
          exact (mem_eraseKey (k, p) ks.next ks.table).mp hm
      refine ⟨?_, ?_, ?_, rfl⟩
      · constructor
        ·
          show 1 ≤ (ks.next + 1) % u32
          rw [hmod]
          omega
        ·
          show (ks.next + 1) % u32 < u32
          rw [hmod]
          exact hroom
        ·
          intro k p hm
          show 1 ≤ k ∧ k < (ks.next + 1) % u32
          rw [hmod]
          rcases hmem k p hm with ⟨rfl, -⟩ | ⟨hm2, -⟩
          · exact ⟨hI.next_pos, by omega⟩
          · have := hI.table_bound k p hm2
            omega
        ·
          intro k p q hp hq
          rcases hmem k p hp with ⟨rfl, rfl⟩ | ⟨hp2, hpk⟩ <;>
            rcases hmem _ q hq with ⟨hk2, rfl⟩ | ⟨hq2, hqk⟩
          · rfl
          · exact absurd rfl hqk
          · exact absurd hk2 hpk
          · exact hI.table_keyFun k p q hp2 hq2
        ·
          intro k j p hp hq
          rcases hmem k p hp with ⟨rfl, rfl⟩ | ⟨hp2, hpk⟩ <;>
            rcases hmem j _ hq with ⟨rfl, hq2⟩ | ⟨hq2, hqk⟩
          · rfl
          · exact ((hnone _ hq2) rfl).elim
          · exact absurd hq2 (hnone _ hp2)
          · exact hI.table_pathFun k j p hp2 hq2
        ·
          show ks.next < (ks.next + 1) % u32
          rw [hmod]
          omega
        ·
          intro h0
          have h0x : ks.next = 0 := h0
          have hnp := hI.next_pos
          exact absurd h0x (by omega)
        ·
          intro k hm
          rcases hmem k path hm with ⟨rfl, -⟩ | ⟨hm2, -⟩
          · rfl
          · exact ((hnone _ hm2) rfl).elim
        ·
          intro q hm
          rcases hmem ks.next q hm with ⟨-, rfl⟩ | ⟨-, hk⟩
          · rfl
          · exact absurd rfl hk
        ·
          intro p hm
          rcases List.mem_append.mp hm with hm | hm
          · rcases hI.hist_bound ks.next p hm with ⟨h0, -⟩ | ⟨-, hlt⟩
            · have := hI.next_pos
              omega
            · omega
          · simpa using hm
        ·
          intro k p hm
          show k = 0 ∧ p = "" ∨ 1 ≤ k ∧ k < (ks.next + 1) % u32
          rw [hmod]
          rcases List.mem_append.mp hm with hm | hm
          · rcases hI.hist_bound k p hm with h | h
            · exact Or.inl h
            · right
              omega
          · have hm2 : k = ks.next ∧ p = path := by simpa using hm
            right
            rw [hm2.1]
            exact ⟨hI.next_pos, by omega⟩
        ·
          intro k p q hp hq
          rcases List.mem_append.mp hp with hp | hp <;>
            rcases List.mem_append.mp hq with hq | hq
          · exact hI.hist_keyFun k p q hp hq
          · have hq2 : k = ks.next ∧ q = path := by simpa using hq
            rcases hI.hist_bound k p hp with ⟨h0, -⟩ | ⟨-, hlt⟩ <;>
              · rw [hq2.1] at *
                have := hI.next_pos
                omega
          · have hp2 : k = ks.next ∧ p = path := by simpa using hp
            rcases hI.hist_bound k q hq with ⟨h0, -⟩ | ⟨-, hlt⟩ <;>
              · rw [hp2.1] at *
                have := hI.next_pos
                omega
          · have hp2 : k = ks.next ∧ p = path := by simpa using hp
            have hq2 : k = ks.next ∧ q = path := by simpa using hq
            rw [hp2.2, hq2.2]
        ·
          intro k p hkp q hq
          rcases hmem k p hkp with ⟨rfl, rfl⟩ | ⟨hm2, hk⟩
          · rcases List.mem_append.mp hq with hq | hq
            · rcases hI.hist_bound ks.next q hq with ⟨h0, -⟩ | ⟨-, hlt⟩
              · have := hI.next_pos
                omega
              · omega
            · exact congrArg Prod.snd (List.mem_singleton.mp hq)
          · rcases List.mem_append.mp hq with hq | hq
            · exact hI.tbl_hist k p hm2 q hq
            · have hq2 : k = ks.next ∧ q = path := by simpa using hq
              exact absurd hq2.1 hk
      · show ks.next ≤ (ks.next + 1) % u32
        rw [hmod]
        omega
      · show (ks.next + 1) % u32 ≤ ks.next + 1
        rw [hmod]
    · rw [genKeyK_table_eq path ks hcp k0 hf]
      have hmem := findKeyOfPath_some path ks.table k0 hf
      have hb := hI.table_bound k0 path hmem
      refine ⟨?_, Nat.le_refl _, Nat.le_succ _, rfl⟩
      constructor
      · exact hI.next_pos
      · exact hI.next_lt
      · exact hI.table_bound
      · exact hI.table_keyFun
      · exact hI.table_pathFun
      · exact hb.2
      ·
        intro h0
        have h0x : k0 = 0 := h0
        exact absurd h0x (by omega)
      ·
        intro k hm
        exact hI.table_pathFun k k0 path hm hmem
      ·
        intro q hm
        exact hI.table_keyFun k0 q path hm hmem
      ·
        intro p hm
        rcases List.mem_append.mp hm with hm | hm
        · exact hI.tbl_hist k0 path hmem p hm
        · simpa using hm
      ·
        intro k p hm
        rcases List.mem_append.mp hm with hm | hm
        · exact hI.hist_bound k p hm
        · have hm2 : k = k0 ∧ p = path := by simpa using hm
          right
          rw [hm2.1]
          exact hb
      ·
        intro k p q hp hq
        rcases List.mem_append.mp hp with hp | hp <;>
          rcases List.mem_append.mp hq with hq | hq
        · exact hI.hist_keyFun k p q hp hq
        · have hq2 : k = k0 ∧ q = path := by simpa using hq
          rw [hq2.2]
          exact hI.tbl_hist k0 path hmem p (hq2.1 ▸ hp)
        · have hp2 : k = k0 ∧ p = path := by simpa using hp
          rw [hp2.2]
          exact (hI.tbl_hist k0 path hmem q (hp2.1 ▸ hq)).symm
        · have hp2 : k = k0 ∧ p = path := by simpa using hp
          have hq2 : k = k0 ∧ q = path := by simpa using hq
          rw [hp2.2, hq2.2]
      ·
        intro k p hkp q hq
        rcases List.mem_append.mp hq with hq | hq
        · exact hI.tbl_hist k p hkp q hq
        · have hq2 : k = k0 ∧ q = path := by simpa using hq
          rw [hq2.2]
          exact (hI.table_keyFun k0 p path (hq2.1 ▸ hkp) hmem).symm


/-- One `GenerateAudioKey` call preserves the free-less invariant. -/
theorem genKeyK_nf (path : String) (ks : KeyState) (hI : KeyInv ks) (hN : KeyNF ks) :
    KeyNF (genKeyK path ks).2 := by
  by_cases hcp : ks.cachePath = path
  · rw [genKeyK_cache_eq path ks hcp]
    constructor
    · intro k p hm hp
      rcases List.mem_append.mp hm with hm | hm
      · exact hN.hist_tbl k p hm hp
      · have hm2 : k = ks.cacheKey ∧ p = path := by simpa using hm
        have hne : ks.cachePath ≠ "" := by
          rw [hcp]
          exact hm2.2 ▸ hp
        rw [hm2.1, hm2.2, ← hcp]
        exact hN.cache_mem hne
    · exact hN.cache_mem
  · rcases hf : findKeyOfPath path ks.table with _ | k0
    · rw [genKeyK_fresh_eq path ks hcp hf]
      constructor
      · intro k p hm hp
        rcases List.mem_append.mp hm with hm | hm
        · have hmem0 := hN.hist_tbl k p hm hp
          have hb := hI.table_bound k p hmem0
          apply List.mem_cons_of_mem
          exact (mem_eraseKey (k, p) ks.next ks.table).mpr ⟨hmem0, by omega⟩
        · have hm2 : k = ks.next ∧ p = path := by simpa using hm
          rw [hm2.1, hm2.2]
          exact List.mem_cons_self _ _
      · intro hne
        exact List.mem_cons_self _ _
    · rw [genKeyK_table_eq path ks hcp k0 hf]
      have hmem := findKeyOfPath_some path ks.table k0 hf
      constructor
      · intro k p hm hp
        rcases List.mem_append.mp hm with hm | hm
        · exact hN.hist_tbl k p hm hp
        · have hm2 : k = k0 ∧ p = path := by simpa using hm
          rw [hm2.1, hm2.2]
          exact hmem
      · intro hne
        exact hmem

/-- Erasing a key (the effect of a free) preserves the invariant. -/
theorem eraseKey_inv (k : Nat) (ks : KeyState) (hI : KeyInv ks) :
    KeyInv { ks with table := eraseKey k ks.table } := by
  have hsub : ∀ e : Nat × String, e ∈ eraseKey k ks.table → e ∈ ks.table :=
    fun e he => ((mem_eraseKey e k ks.table).mp he).1
  constructor
  · exact hI.next_pos
  · exact hI.next_lt
  · intro k2 p hm
    exact hI.table_bound k2 p (hsub _ hm)
  · intro k2 p q hp hq
    exact hI.table_keyFun k2 p q (hsub _ hp) (hsub _ hq)
  · intro k2 j p hp hq
    exact hI.table_pathFun k2 j p (hsub _ hp) (hsub _ hq)
  · exact hI.cache_lt
  · exact hI.cache_zero
  · intro k2 hm
    exact hI.cache_coh k2 (hsub _ hm)
  · intro q hm
    exact hI.cache_tbl q (hsub _ hm)
  · exact hI.cache_hist
  · exact hI.hist_bound
  · exact hI.hist_keyFun
  · intro k2 p hm q hq
    exact hI.tbl_hist k2 p (hsub _ hm) q hq

/-! Key-state effect of every operation: unchanged, one `GenerateAudioKey`
call, or one table erasure. -/

theorem keys_Init (s : AudioState) : (Init s).keys = s.keys := rfl

theorem keys_GenerateAudioKey (p : String) (s : AudioState) :
    (GenerateAudioKey p s).2.keys = (genKeyK p s.keys).2 := rfl

theorem keys_SetMusicVolume (v : Int) (s : AudioState) :
    (SetMusicVolume v s).keys = s.keys := rfl

theorem keys_SetFinishMusicCallback (b : Bool) (s : AudioState) :
    (SetFinishMusicCallback b s).keys = s.keys := rfl

theorem keys_SetMusicPosition (x y : ℚ) (s : AudioState) :
    (SetMusicPosition x y s).keys = s.keys := by
  unfold SetMusicPosition
  split <;> rfl

theorem keys_FadeOutMusic (ms : Int) (s : AudioState) :
    (FadeOutMusic ms s).keys = s.keys := by
  unfold FadeOutMusic
  split <;> rfl

theorem keys_UpdateFading (s : AudioState) : (UpdateFading s).keys = s.keys := by
  simp only [UpdateFading]
  repeat' split
  all_goals rfl

theorem keys_OperateCurrentMusic (a : EAudioAction) (s : AudioState) :
    (OperateCurrentMusic a s).keys = s.keys := by
  unfold OperateCurrentMusic
  split
  · rfl
  · split <;> rfl

theorem keys_OperateCurrentSounds (a : EAudioAction) (s : AudioState) :
    (OperateCurrentSounds a s).keys = s.keys := by
  unfold OperateCurrentSounds
  split <;> rfl

theorem keys_SetSoundVolume (p : String) (v : Int) (s : AudioState) :
    (SetSoundVolume p v s).keys = (genKeyK p s.keys).2 := by
  simp only [SetSoundVolume]
  repeat' split
  all_goals rfl

theorem keys_GetSoundVolume (p : String) (s : AudioState) :
    (GetSoundVolume p s).2.keys = (genKeyK p s.keys).2 := by
  simp only [GetSoundVolume]
  repeat' split
  all_goals rfl

theorem keys_PlayMusic (d : String → Bool) (p : String) (s : AudioState) :
    (PlayMusic d p s).2.keys = s.keys ∨
    (PlayMusic d p s).2.keys = (genKeyK p s.keys).2 := by
  simp only [PlayMusic, playMusicAttach]
  repeat' split
  all_goals first
    | exact Or.inl rfl
    | exact Or.inr rfl

theorem keys_PlaySoundEffect (d : String → Bool) (p : String) (s : AudioState) :
    (PlaySoundEffect d p s).2.keys = s.keys ∨
    (PlaySoundEffect d p s).2.keys = (genKeyK p s.keys).2 := by
  simp only [PlaySoundEffect, playSoundAttach]
  repeat' split
  all_goals first
    | exact Or.inl rfl
    | exact Or.inr rfl

theorem keys_FadeInMusic (d : String → Bool) (p : String) (l ms : Int) (s : AudioState) :
    (FadeInMusic d p l ms s).keys = s.keys ∨
    (FadeInMusic d p l ms s).keys = (genKeyK p s.keys).2 := by
  simp only [FadeInMusic]
  split <;>
    · rcases keys_PlayMusic d p s with h | h
      · exact Or.inl h
      · exact Or.inr h

theorem keys_FreeMusicByKey (k : Nat) (s : AudioState) :
    (FreeMusicByKey k s).keys = s.keys ∨
    (FreeMusicByKey k s).keys = { s.keys with table := eraseKey k s.keys.table } := by
  unfold FreeMusicByKey
  split
  · exact Or.inl rfl
  · exact Or.inr rfl

theorem keys_FreeSoundByKey (k : Nat) (s : AudioState) :
    (FreeSoundByKey k s).keys = s.keys ∨
    (FreeSoundByKey k s).keys = { s.keys with table := eraseKey k s.keys.table } := by
  unfold FreeSoundByKey
  split
  · exact Or.inl rfl
  · exact Or.inr rfl

/-- One operation preserves the key invariant (given counter room), moves
the counter up by at most one, and extends the ghost history. -/
theorem applyOp_master (d : String → Bool) (op : Op) (s : AudioState)
    (hI : KeyInv s.keys) (hroom : s.keys.next + 1 < u32) :
    KeyInv (applyOp d op s).keys ∧
    s.keys.next ≤ (applyOp d op s).keys.next ∧
    (applyOp d op s).keys.next ≤ s.keys.next + 1 ∧
    ∃ l, (applyOp d op s).keys.hist = s.keys.hist ++ l := by
  have hid : ∀ t : AudioState, t.keys = s.keys →
      KeyInv t.keys ∧ s.keys.next ≤ t.keys.next ∧ t.keys.next ≤ s.keys.next + 1 ∧
      ∃ l, t.keys.hist = s.keys.hist ++ l := by
    intro t ht
    rw [ht]
    exact ⟨hI, Nat.le_refl _, Nat.le_succ _, ⟨[], (List.append_nil _).symm⟩⟩
  have hgen : ∀ (t : AudioState) (p : String), t.keys = (genKeyK p s.keys).2 →
      KeyInv t.keys ∧ s.keys.next ≤ t.keys.next ∧ t.keys.next ≤ s.keys.next + 1 ∧
      ∃ l, t.keys.hist = s.keys.hist ++ l := by
    intro t p ht
    rw [ht]
    obtain ⟨a, b, c, e⟩ := genKeyK_inv p s.keys hI hroom
    exact ⟨a, b, c, ⟨_, e⟩⟩
  have hers : ∀ (t : AudioState) (k : Nat),
      t.keys = { s.keys with table := eraseKey k s.keys.table } →
      KeyInv t.keys ∧ s.keys.next ≤ t.keys.next ∧ t.keys.next ≤ s.keys.next + 1 ∧
      ∃ l, t.keys.hist = s.keys.hist ++ l := by
    intro t k ht
    rw [ht]
    exact ⟨eraseKey_inv k s.keys hI, Nat.le_refl _, Nat.le_succ _,
      ⟨[], (List.append_nil _).symm⟩⟩
  cases op with
  | init => exact hid _ (keys_Init s)
  | genKey p => exact hgen _ p (keys_GenerateAudioKey p s)
  | playMusic p =>
      rcases keys_PlayMusic d p s with h | h
      · exact hid _ h
      · exact hgen _ p h
  | playSoundEffect p =>
      rcases keys_PlaySoundEffect d p s with h | h
      · exact hid _ h
      · exact hgen _ p h
  | operateCurrentMusic a => exact hid _ (keys_OperateCurrentMusic a s)
  | operateCurrentSounds a => exact hid _ (keys_OperateCurrentSounds a s)
  | fadeInMusic p l ms =>
      rcases keys_FadeInMusic d p l ms s with h | h
      · exact hid _ h
      · exact hgen _ p h
  | fadeOutMusic ms => exact hid _ (keys_FadeOutMusic ms s)
  | freeMusicByKey k =>
      rcases keys_FreeMusicByKey k s with h | h
      · exact hid _ h
      · exact hers _ k h
  | freeSoundByKey k =>
      rcases keys_FreeSoundByKey k s with h | h
      · exact hid _ h
      · exact hers _ k h
  | setMusicVolume v => exact hid _ (keys_SetMusicVolume v s)
  | setSoundVolume p v => exact hgen _ p (keys_SetSoundVolume p v s)
  | getSoundVolume p => exact hgen _ p (keys_GetSoundVolume p s)
  | setMusicPosition x y => exact hid _ (keys_SetMusicPosition x y s)
  | setFinishMusicCallback b => exact hid _ (keys_SetFinishMusicCallback b s)
  | updateFading => exact hid _ (keys_UpdateFading s)

/-- A free-less operation preserves the free-less invariant. -/
theorem applyOp_nf (d : String → Bool) (op : Op) (s : AudioState)
    (hI : KeyInv s.keys) (hfree : op.isFree = false) (hN : KeyNF s.keys) :
    KeyNF (applyOp d op s).keys := by
  have hid : ∀ t : AudioState, t.keys = s.keys → KeyNF t.keys := by
    intro t ht
    rw [ht]
    exact hN
  have hgen : ∀ (t : AudioState) (p : String), t.keys = (genKeyK p s.keys).2 →
      KeyNF t.keys := by
    intro t p ht
    rw [ht]
    exact genKeyK_nf p s.keys hI hN
  cases op with
  | init => exact hid _ (keys_Init s)
  | genKey p => exact hgen _ p (keys_GenerateAudioKey p s)
  | playMusic p =>
      rcases keys_PlayMusic d p s with h | h
      · exact hid _ h
      · exact hgen _ p h
  | playSoundEffect p =>
      rcases keys_PlaySoundEffect d p s with h | h
      · exact hid _ h
      · exact hgen _ p h
  | operateCurrentMusic a => exact hid _ (keys_OperateCurrentMusic a s)
  | operateCurrentSounds a => exact hid _ (keys_OperateCurrentSounds a s)
  | fadeInMusic p l ms =>
      rcases keys_FadeInMusic d p l ms s with h | h
      · exact hid _ h
      · exact hgen _ p h
  | fadeOutMusic ms => exact hid _ (keys_FadeOutMusic ms s)
  | freeMusicByKey k => simp [Op.isFree] at hfree
  | freeSoundByKey k => simp [Op.isFree] at hfree
  | setMusicVolume v => exact hid _ (keys_SetMusicVolume v s)
  | setSoundVolume p v => exact hgen _ p (keys_SetSoundVolume p v s)
  | getSoundVolume p => exact hgen _ p (keys_GetSoundVolume p s)
  | setMusicPosition x y => exact hid _ (keys_SetMusicPosition x y s)
  | setFinishMusicCallback b => exact hid _ (keys_SetFinishMusicCallback b s)
  | updateFading => exact hid _ (keys_UpdateFading s)

/-- Invariant, counter bounds and history extension over a run whose
length leaves the counter room. -/
theorem run_master (d : String → Bool) (ops : List Op) :
    ∀ s : AudioState, KeyInv s.keys → s.keys.next + ops.length < u32 →
      KeyInv (run d ops s).keys ∧
      s.keys.next ≤ (run d ops s).keys.next ∧
      (run d ops s).keys.next ≤ s.keys.next + ops.length ∧
      ∃ l, (run d ops s).keys.hist = s.keys.hist ++ l := by
  induction ops with
  | nil =>
      intro s hI _
      refine ⟨hI, Nat.le_refl _, ?_, ⟨[], (List.append_nil _).symm⟩⟩
      show s.keys.next ≤ s.keys.next + ([] : List Op).length
      simp
  | cons op ops ih =>
      intro s hI hroom
      rw [List.length_cons] at hroom
      have hroom1 : s.keys.next + 1 < u32 := by omega
      obtain ⟨h1, h2, h3, l1, hl1⟩ := applyOp_master d op s hI hroom1
      have hroomrest : (applyOp d op s).keys.next + ops.length < u32 := by omega
      obtain ⟨g1, g2, g3, l2, hl2⟩ := ih (applyOp d op s) h1 hroomrest
      refine ⟨g1, Nat.le_trans h2 g2, ?_, ⟨l1 ++ l2, ?_⟩⟩
      · show (run d ops (applyOp d op s)).keys.next ≤ s.keys.next + (op :: ops).length
        rw [List.length_cons]
        omega
      · show (run d ops (applyOp d op s)).keys.hist = s.keys.hist ++ (l1 ++ l2)
        rw [hl2, hl1, List.append_assoc]

/-- The free-less invariant over a free-less run. -/
theorem run_nf (d : String → Bool) (ops : List Op) :
    ∀ s : AudioState, KeyInv s.keys → s.keys.next + ops.length < u32 →
      (∀ op ∈ ops, op.isFree = false) → KeyNF s.keys → KeyNF (run d ops s).keys := by
  induction ops with
  | nil =>
      intro s _ _ _ hN
      exact hN
  | cons op ops ih =>
      intro s hI hroom hfree hN
      rw [List.length_cons] at hroom
      have hroom1 : s.keys.next + 1 < u32 := by omega
      obtain ⟨h1, -, h3, -⟩ := applyOp_master d op s hI hroom1
      have hroomrest : (applyOp d op s).keys.next + ops.length < u32 := by omega
      exact ih (applyOp d op s) h1 hroomrest
        (fun o ho => hfree o (List.mem_cons_of_mem _ ho))
        (applyOp_nf d op s hI (hfree op (List.mem_cons_self _ _)) hN)


/-- Running an appended sequence is running the pieces in order. -/
theorem run_append (d : String → Bool) (l1 l2 : List Op) (s : AudioState) :
    run d (l1 ++ l2) s = run d l2 (run d l1 s) := by
  unfold run
  exact List.foldl_append _ _ _ _

/-- C1 counterexample: the claim asserts key stability across repeated
lookups over every operation sequence, including ones containing frees.
Play "a.wav" (key 1), free key 1 (which erases the path-table entry but
not the cache), play "b.wav" (overwriting the cache), and look "a.wav" up
again: the lookup now misses both cache and table and mints the fresh key
3, so the same path received keys 1 and 3 in one object lifetime. -/
theorem C1_counterexample :
    (1, "a.wav") ∈ (run decodeAll [Op.init, Op.playMusic "a.wav", Op.freeMusicByKey 1,
        Op.playMusic "b.wav", Op.genKey "a.wav"] initialState).keys.hist ∧
    (3, "a.wav") ∈ (run decodeAll [Op.init, Op.playMusic "a.wav", Op.freeMusicByKey 1,
        Op.playMusic "b.wav", Op.genKey "a.wav"] initialState).keys.hist ∧
    (1 : Nat) ≠ 3 := by
  refine ⟨?_, ?_, ?_⟩ <;> decide

/-- C1 as amended: over any operation sequence from the constructor state
in which fewer than 2 ^ 32 keys can be generated (length at most
2 ^ 32 - 2), the keys returned by `GenerateAudioKey` for distinct paths
are always distinct; and when the sequence contains no
`FreeMusicByKey`/`FreeSoundByKey` call, repeated lookups of the same
non-empty path always return the same key.  (The empty path is excluded
because the lookup cache starts as the empty string with key 0, so the
first lookup of "" returns 0 and a later one returns a fresh key.) -/
theorem C1_amended (d : String → Bool) (ops : List Op)
    (hlen : ops.length ≤ u32 - 2) :
    (∀ k p q, (k, p) ∈ (run d ops initialState).keys.hist →
      (k, q) ∈ (run d ops initialState).keys.hist → p = q) ∧
    ((∀ op ∈ ops, op.isFree = false) →
      ∀ k j p, p ≠ "" → (k, p) ∈ (run d ops initialState).keys.hist →
        (j, p) ∈ (run d ops initialState).keys.hist → k = j) := by
  have hu := u32_eq
  have hroom : initialState.keys.next + ops.length < u32 := by
    have h1 : initialState.keys.next = 1 := rfl
    omega
  obtain ⟨hInv, -, -, -⟩ := run_master d ops initialState keyInv_initial hroom
  constructor
  · exact hInv.hist_keyFun
  · intro hfree k j p hp h1 h2
    have hN := run_nf d ops initialState keyInv_initial hroom hfree keyNF_initial
    exact hInv.table_pathFun k j p (hN.hist_tbl k p h1 hp) (hN.hist_tbl j p h2 hp)

/-- Witness for the amended C1 at a concrete free-less sequence. -/
theorem C1_witness :
    (∀ k p q,
      (k, p) ∈ (run decodeAll [Op.genKey "a.wav", Op.genKey "a.wav"] initialState).keys.hist →
      (k, q) ∈ (run decodeAll [Op.genKey "a.wav", Op.genKey "a.wav"] initialState).keys.hist →
      p = q) ∧
    ((∀ op ∈ [Op.genKey "a.wav", Op.genKey "a.wav"], op.isFree = false) →
      ∀ k j p, p ≠ "" →
        (k, p) ∈ (run decodeAll [Op.genKey "a.wav", Op.genKey "a.wav"] initialState).keys.hist →
        (j, p) ∈ (run decodeAll [Op.genKey "a.wav", Op.genKey "a.wav"] initialState).keys.hist →
        k = j) :=
  C1_amended decodeAll [Op.genKey "a.wav", Op.genKey "a.wav"] (by norm_num [u32])

/-- C9 as amended: the key counter starts at 1 and never decreases over
any operation sequence from the constructor state in which fewer than
2 ^ 32 keys can be generated, and over such a sequence a key value
returned by `GenerateAudioKey` for some path is never also returned for a
different path. -/
theorem C9_amended (d : String → Bool) (ops : List Op)
    (hlen : ops.length ≤ u32 - 2) :
    initialState.keys.next = 1 ∧
    (∀ i j, i ≤ j → j ≤ ops.length →
      (run d (ops.take i) initialState).keys.next ≤
        (run d (ops.take j) initialState).keys.next) ∧
    (∀ k p q, (k, p) ∈ (run d ops initialState).keys.hist →
      (k, q) ∈ (run d ops initialState).keys.hist → p = q) := by
  have hu := u32_eq
  have h1 : initialState.keys.next = 1 := rfl
  refine ⟨rfl, ?_, ?_⟩
  · intro i j hij hj
    have hleni : (ops.take i).length ≤ i := by
      rw [List.length_take]
      omega
    have hroomi : initialState.keys.next + (ops.take i).length < u32 := by
      have : (ops.take i).length ≤ ops.length := by
        rw [List.length_take]
        omega
      omega
    obtain ⟨hIi, -, hbi, -⟩ := run_master d (ops.take i) initialState keyInv_initial hroomi
    have hj2 : i + (j - i) = j := by omega
    have hseg : ops.take j = ops.take i ++ (ops.drop i).take (j - i) := by
      conv_lhs => rw [← hj2]
      rw [List.take_add]
    have hlenseg : ((ops.drop i).take (j - i)).length ≤ j - i := by
      rw [List.length_take]
      omega
    have hroomseg :
        (run d (ops.take i) initialState).keys.next +
          ((ops.drop i).take (j - i)).length < u32 := by
      omega
    obtain ⟨-, hmono, -, -⟩ :=
      run_master d ((ops.drop i).take (j - i)) (run d (ops.take i) initialState) hIi hroomseg
    rw [hseg, run_append]
    exact hmono
  · have hroom : initialState.keys.next + ops.length < u32 := by omega
    obtain ⟨hInv, -, -, -⟩ := run_master d ops initialState keyInv_initial hroom
    exact hInv.hist_keyFun

/-- Witness for the amended C9 at a concrete sequence. -/
theorem C9_witness :
    initialState.keys.next = 1 ∧
    (∀ i j, i ≤ j → j ≤ [Op.genKey "a.wav", Op.freeMusicByKey 1].length →
      (run decodeAll ([Op.genKey "a.wav", Op.freeMusicByKey 1].take i) initialState).keys.next ≤
        (run decodeAll ([Op.genKey "a.wav", Op.freeMusicByKey 1].take j) initialState).keys.next) ∧
    (∀ k p q,
      (k, p) ∈ (run decodeAll [Op.genKey "a.wav", Op.freeMusicByKey 1] initialState).keys.hist →
      (k, q) ∈ (run decodeAll [Op.genKey "a.wav", Op.freeMusicByKey 1] initialState).keys.hist →
      p = q) :=
  C9_amended decodeAll [Op.genKey "a.wav", Op.freeMusicByKey 1] (by norm_num [u32])

/-! C9 counterexample: the `uint32_t` counter wraps, so over a long enough
sequence a key value is reused for a different path. -/

/-- Distinct non-empty probe paths. -/
def pathOf (n : Nat) : String := String.mk (List.replicate (n + 1) 'a')

/-- Run `GenerateAudioKey` on the probe paths in order, from the
constructor key state. -/
def kgRun : Nat → KeyState
  | 0 => initialState.keys
  | n + 1 => (genKeyK (pathOf n) (kgRun n)).2

/-- Key returned for the n-th probe path. -/
def kgKey (n : Nat) : Nat := (genKeyK (pathOf n) (kgRun n)).1

/-- Probe paths are pairwise distinct. -/
theorem pathOf_inj {m n : Nat} (h : pathOf m = pathOf n) : m = n := by
  have hd := congrArg String.data h
  have hlen := congrArg List.length hd
  simp [pathOf] at hlen
  exact hlen

/-- Probe paths are non-empty. -/
theorem pathOf_ne_empty (n : Nat) : pathOf n ≠ "" := by
  intro h
  have hd := congrArg String.data h
  have hlen := congrArg List.length hd
  rw [show ("" : String).data = [] from rfl] at hlen
  simp [pathOf] at hlen

/-- Counter value, cache path and table contents along the probe run. -/
theorem kgRun_facts : ∀ n : Nat,
    (kgRun n).next = (1 + n) % u32 ∧
    ((kgRun n).cachePath = if n = 0 then "" else pathOf (n - 1)) ∧
    (∀ e : Nat × String, e ∈ (kgRun n).table → ∃ j, j < n ∧ e.2 = pathOf j) := by
  intro n
  induction n with
  | zero =>
      refine ⟨?_, rfl, ?_⟩
      · show (1 : Nat) = (1 + 0) % u32
        rw [u32_eq]
      · intro e he
        exact absurd he (List.not_mem_nil e)
  | succ n ih =>
      obtain ⟨hnext, hcache, htbl⟩ := ih
      have hcp : (kgRun n).cachePath ≠ pathOf n := by
        rcases Nat.eq_zero_or_pos n with rfl | hpos
        · rw [hcache, if_pos rfl]
          exact Ne.symm (pathOf_ne_empty 0)
        · rw [hcache, if_neg (by omega)]
          intro h
          have := pathOf_inj h
          omega
      have hfind : findKeyOfPath (pathOf n) (kgRun n).table = none := by
        rw [findKeyOfPath_none_iff]
        intro e he
        obtain ⟨j, hj, hpj⟩ := htbl e he
        rw [hpj]
        intro h
        have := pathOf_inj h
        omega
      have heq := genKeyK_fresh_eq (pathOf n) (kgRun n) hcp hfind
      refine ⟨?_, ?_, ?_⟩
      · show (genKeyK (pathOf n) (kgRun n)).2.next = (1 + (n + 1)) % u32
        simp only [heq]
        rw [hnext, u32_eq]
        omega
      · show (genKeyK (pathOf n) (kgRun n)).2.cachePath = _
        simp only [heq]
        rw [if_neg (by omega : ¬(n + 1 = 0))]
        rfl
      · intro e he
        show ∃ j, j < n + 1 ∧ e.2 = pathOf j
        have he2 : e ∈ (genKeyK (pathOf n) (kgRun n)).2.table := he
        simp only [heq] at he2
        rcases List.mem_cons.mp he2 with rfl | he3
        · exact ⟨n, by omega, rfl⟩
        · obtain ⟨hmem, -⟩ := (mem_eraseKey e _ _).mp he3
          obtain ⟨j, hj, hpj⟩ := htbl e hmem
          exact ⟨j, by omega, hpj⟩

/-- Every probe lookup takes the fresh-key branch. -/
theorem kg_fresh (n : Nat) :
    genKeyK (pathOf n) (kgRun n) =
      ((kgRun n).next,
       { next := ((kgRun n).next + 1) % u32,
         table := ((kgRun n).next, pathOf n) :: eraseKey (kgRun n).next (kgRun n).table,
         cachePath := pathOf n,
         cacheKey := (kgRun n).next,
         hist := (kgRun n).hist ++ [((kgRun n).next, pathOf n)] }) := by
  obtain ⟨hnext, hcache, htbl⟩ := kgRun_facts n
  have hcp : (kgRun n).cachePath ≠ pathOf n := by
    rcases Nat.eq_zero_or_pos n with rfl | hpos
    · rw [hcache, if_pos rfl]
      exact Ne.symm (pathOf_ne_empty 0)
    · rw [hcache, if_neg (by omega)]
      intro h
      have := pathOf_inj h
      omega
  have hfind : findKeyOfPath (pathOf n) (kgRun n).table = none := by
    rw [findKeyOfPath_none_iff]
    intro e he
    obtain ⟨j, hj, hpj⟩ := htbl e he
    rw [hpj]
    intro h
    have := pathOf_inj h
    omega
  exact genKeyK_fresh_eq (pathOf n) (kgRun n) hcp hfind

/-- The key returned for the n-th probe path is the wrapped counter. -/
theorem kgKey_eq (n : Nat) : kgKey n = (1 + n) % u32 := by
  show (genKeyK (pathOf n) (kgRun n)).1 = (1 + n) % u32
  rw [kg_fresh n]
  exact (kgRun_facts n).1

/-- History growth along the probe run. -/
theorem kg_hist_succ (n : Nat) :
    (kgRun (n + 1)).hist = (kgRun n).hist ++ [(kgKey n, pathOf n)] := by
  have hk : kgKey n = (kgRun n).next := by
    show (genKeyK (pathOf n) (kgRun n)).1 = (kgRun n).next
    rw [kg_fresh n]
  rw [hk]
  show (genKeyK (pathOf n) (kgRun n)).2.hist = _
  rw [kg_fresh n]

/-- The n-th probe pair is recorded in the history. -/
theorem kg_hist_mem (n : Nat) : (kgKey n, pathOf n) ∈ (kgRun (n + 1)).hist := by
  rw [kg_hist_succ]
  exact List.mem_append.mpr (Or.inr (List.mem_singleton.mpr rfl))

/-- Histories only grow along the probe run. -/
theorem kg_hist_mono {n m : Nat} (hnm : n ≤ m) :
    ∀ e ∈ (kgRun n).hist, e ∈ (kgRun m).hist := by
  induction m with
  | zero =>
      intro e he
      have hn0 : n = 0 := by omega
      rwa [hn0] at he
  | succ m ih =>
      intro e he
      rcases Nat.lt_or_ge n (m + 1) with hlt | hge
      · have hm : n ≤ m := by omega
        have := ih hm e he
        rw [kg_hist_succ]
        exact List.mem_append_left _ this
      · have hn : n = m + 1 := by omega
        rwa [hn] at he

/-- C9 counterexample: after 2 ^ 32 fresh-path lookups the `uint32_t` key
counter wraps, and the lookup number 2 ^ 32 returns the key 1 again, for
a path different from the one that received key 1 first: a key value is
reused for a different path, refuting the claim that keys are never
reused over every operation sequence. -/
theorem C9_counterexample :
    kgKey 0 = 1 ∧ kgKey (2 ^ 32) = 1 ∧ pathOf 0 ≠ pathOf (2 ^ 32) ∧
    (1, pathOf 0) ∈ (kgRun (2 ^ 32 + 1)).hist ∧
    (1, pathOf (2 ^ 32)) ∈ (kgRun (2 ^ 32 + 1)).hist := by
  have h0 : kgKey 0 = 1 := by
    rw [kgKey_eq, u32_eq]
  have h1 : kgKey (2 ^ 32) = 1 := by
    rw [kgKey_eq, u32_eq]
    norm_num
  have hne : pathOf 0 ≠ pathOf (2 ^ 32) := by
    intro h
    have := pathOf_inj h
    norm_num at this
  refine ⟨h0, h1, hne, ?_, ?_⟩
  · have hm := kg_hist_mem 0
    rw [h0] at hm
    exact kg_hist_mono (by norm_num) _ hm
  · have hm := kg_hist_mem (2 ^ 32)
    rw [h1] at hm
    exact hm

end Engine
